import Mathlib

/-!
Verification of the notion-cli patch engine and error layer.

Strings from the TypeScript source are modelled as `List Char` (`Text`);
`String.prototype.split('\n')` becomes `splitLines`, `Array.prototype.join('\n')`
becomes `joinLines`, and `Array.prototype.slice` becomes `jsSlice` with
JavaScript's negative-index clamping semantics.
-/

/-- A JavaScript string, modelled as its list of characters. -/
abbrev Text := List Char

/-- `s.split('\n')` from JavaScript: split on every newline character.
The empty string yields `[[]]` (one empty segment), as in JavaScript. -/
def splitLines (s : Text) : List Text := s.splitOn '\n'

/-- `arr.join('\n')` from JavaScript. -/
def joinLines (ls : List Text) : Text := List.intercalate ['\n'] ls

theorem splitLines_ne_nil (s : Text) : splitLines s ≠ [] :=
  List.splitOnP_ne_nil _ s

/-- Joining the split segments reconstructs the original string. -/
theorem joinLines_splitLines (s : Text) : joinLines (splitLines s) = s :=
  List.intercalate_splitOn s '\n'

/-- Splitting the join of newline-free segments recovers the segments. -/
theorem splitLines_joinLines (ls : List Text) (hne : ls ≠ [])
    (hfree : ∀ l ∈ ls, '\n' ∉ l) : splitLines (joinLines ls) = ls :=
  List.splitOn_intercalate ls '\n' hfree hne

theorem splitLines_nil : splitLines [] = [[]] := rfl

theorem splitLines_cons (c : Char) (cs : Text) :
    splitLines (c :: cs) =
      if c = '\n' then [] :: splitLines cs
      else (splitLines cs).modifyHead (List.cons c) := by
  simp only [splitLines, List.splitOn, List.splitOnP_cons, beq_iff_eq]

/-- Splitting distributes over a newline that joins two strings. -/
theorem splitLines_append_newline (a b : Text) :
    splitLines (a ++ '\n' :: b) = splitLines a ++ splitLines b := by
  induction a with
  | nil => simp [splitLines_cons, splitLines_nil]
  | cons c cs ih =>
    by_cases h : c = '\n'
    · subst h
      simp [splitLines_cons, ih]
    · rw [List.cons_append, splitLines_cons, if_neg h, ih, splitLines_cons, if_neg h]
      cases hs : splitLines cs with
      | nil => exact absurd hs (splitLines_ne_nil cs)
      | cons l ls => simp

/-- A trailing newline contributes exactly one final empty line. -/
theorem splitLines_append_newline_nil (s : Text) :
    splitLines (s ++ ['\n']) = splitLines s ++ [[]] := by
  simpa [splitLines_nil] using splitLines_append_newline s []

/-- No segment produced by `splitLines` contains a newline. -/
theorem not_mem_splitLines (s : Text) : ∀ l ∈ splitLines s, '\n' ∉ l := by
  induction s with
  | nil =>
    intro l hl
    rw [splitLines_nil, List.mem_singleton] at hl
    simp [hl]
  | cons c cs ih =>
    intro l hl
    by_cases h : c = '\n'
    · subst h
      rw [splitLines_cons, if_pos rfl] at hl
      rcases List.mem_cons.mp hl with rfl | hl
      · simp
      · exact ih l hl
    · rw [splitLines_cons, if_neg h] at hl
      cases hs : splitLines cs with
      | nil => exact absurd hs (splitLines_ne_nil cs)
      | cons t ts =>
        rw [hs] at hl
        rcases List.mem_cons.mp hl with rfl | hl
        · intro hmem
          rcases List.mem_cons.mp hmem with rfl | hmem
          · exact h rfl
          · exact ih t (hs ▸ List.mem_cons_self t ts) hmem
        · exact ih l (hs ▸ List.mem_cons_of_mem t hl)

/-- A newline-free string splits into the single segment it is. -/
theorem splitLines_of_not_mem (l : Text) (hl : '\n' ∉ l) : splitLines l = [l] :=
  List.splitOnP_eq_single _ _ (fun x hx => by
    simp only [beq_iff_eq]
    rintro rfl
    exact hl hx)

theorem joinLines_cons_cons (a b : Text) (t : List Text) :
    joinLines (a :: b :: t) = a ++ '\n' :: joinLines (b :: t) := by
  simp [joinLines, List.intercalate]

/-- `joinLines` of two nonempty groups concatenates with a separating newline. -/
theorem joinLines_append (xs ys : List Text) (hxs : xs ≠ []) (hys : ys ≠ []) :
    joinLines (xs ++ ys) = joinLines xs ++ '\n' :: joinLines ys := by
  induction xs with
  | nil => exact absurd rfl hxs
  | cons x xs' ih =>
    cases xs' with
    | nil =>
      cases ys with
      | nil => exact absurd rfl hys
      | cons y ys' =>
        rw [List.singleton_append, joinLines_cons_cons]
        simp [joinLines, List.intercalate]
    | cons x' xs'' =>
      have hstep : (x :: x' :: xs'') ++ ys = x :: x' :: (xs'' ++ ys) := by simp
      rw [hstep, joinLines_cons_cons]
      have hstep2 : (x' :: xs'') ++ ys = x' :: (xs'' ++ ys) := by simp
      rw [← hstep2, ih (by simp), joinLines_cons_cons]
      simp

/-!
## Secret sanitisation (`sanitizeMessage` in `errors.ts`)

The four JavaScript regex replacements are modelled as left-to-right scans
that mirror the regex engine's behaviour on these specific patterns:
  1. `/\b(ntn_[A-Za-z0-9_-]+)\b/g`      → `[REDACTED]`
  2. `/\b(secret_[A-Za-z0-9_-]+)\b/g`   → `[REDACTED]`
  3. `/Bearer\s+[A-Za-z0-9_-]+/g`       → `Bearer [REDACTED]`
  4. `/\b[a-f0-9]{40,}\b/gi`            → `[REDACTED]`
-/

/-- JavaScript `\d`: the ASCII digits `0`-`9`. -/
def isDigitChar (c : Char) : Bool := decide (48 ≤ c.toNat ∧ c.toNat ≤ 57)

/-- JavaScript `\w`: ASCII letters, digits and underscore. -/
def isWordChar (c : Char) : Bool :=
  decide (65 ≤ c.toNat ∧ c.toNat ≤ 90) || decide (97 ≤ c.toNat ∧ c.toNat ≤ 122) ||
  isDigitChar c || decide (c.toNat = 95)

/-- The character class `[A-Za-z0-9_-]` used by the token patterns. -/
def isTokenChar (c : Char) : Bool := isWordChar c || decide (c.toNat = 45)

/-- The character class `[a-f0-9]` under the `i` flag: hex digits of either case. -/
def isHexIChar (c : Char) : Bool :=
  isDigitChar c || decide (97 ≤ c.toNat ∧ c.toNat ≤ 102) ||
  decide (65 ≤ c.toNat ∧ c.toNat ≤ 70)

/-- JavaScript `\s`: ASCII whitespace plus the Unicode space characters. -/
def isJsSpace (c : Char) : Bool :=
  decide (c.toNat = 32) || decide (c.toNat = 9) || decide (c.toNat = 10) ||
  decide (c.toNat = 13) || decide (c.toNat = 11) || decide (c.toNat = 12) ||
  decide (c.toNat = 0xa0) || decide (c.toNat = 0x1680) ||
  decide (0x2000 ≤ c.toNat ∧ c.toNat ≤ 0x200a) ||
  decide (c.toNat = 0x2028) || decide (c.toNat = 0x2029) ||
  decide (c.toNat = 0x202f) || decide (c.toNat = 0x205f) ||
  decide (c.toNat = 0x3000) || decide (c.toNat = 0xfeff)

/-- Word-ness of the character preceding the scan position (`none` = string start). -/
def wordO : Option Char → Bool
  | none => false
  | some c => isWordChar c

/-- Remove the trailing run of `-` characters (regex backtracking over the
trailing `\b` of the token patterns). -/
def dropTrailingDashes (l : Text) : Text :=
  (l.reverse.dropWhile (fun c => c == '-')).reverse

/-- Length of the match of `\b PFX [A-Za-z0-9_-]+ \b` starting exactly at the
head of `s`, with `prev` the character before `s`; `none` if there is no match
here.  The greedy class run backtracks over trailing dashes to satisfy the
final word boundary, and fails if the run is empty or all dashes. -/
def tokenMatchLen (pfx : Text) (prev : Option Char) (s : Text) : Option Nat :=
  if wordO prev then none
  else if pfx.isPrefixOf s then
    let core := dropTrailingDashes ((s.drop pfx.length).takeWhile isTokenChar)
    if core = [] then none else some (pfx.length + core.length)
  else none

/-- Length of the match of `Bearer \s+ [A-Za-z0-9_-]+` starting at the head
of `s` (this pattern has no word-boundary assertions). -/
def bearerMatchLen (s : Text) : Option Nat :=
  if ("Bearer".data).isPrefixOf s then
    let r1 := s.drop 6
    let sp := r1.takeWhile isJsSpace
    if sp = [] then none
    else
      let run := (r1.drop sp.length).takeWhile isTokenChar
      if run = [] then none else some (6 + sp.length + run.length)
  else none

/-- Length of the match of `\b [a-f0-9]{40,} \b` (case-insensitive) starting
at the head of `s`; shortening the greedy run can never repair a failed final
boundary because every hex digit is a word character. -/
def hexMatchLen (prev : Option Char) (s : Text) : Option Nat :=
  if wordO prev then none
  else
    let run := s.takeWhile isHexIChar
    if run.length < 40 then none
    else
      match s.drop run.length with
      | [] => some run.length
      | c :: _ => if isWordChar c then none else some run.length

def redactedText : Text := "[REDACTED]".data

def bearerRedactedText : Text := "Bearer [REDACTED]".data

theorem tokenMatchLen_bounds {pfx : Text} {prev : Option Char} {s : Text} {n : Nat}
    (h : tokenMatchLen pfx prev s = some n) : 0 < n ∧ n ≤ s.length := by
  unfold tokenMatchLen at h
  split at h
  · exact absurd h (by simp)
  · split at h
    · next hpre =>
      simp only at h
      split at h
      · exact absurd h (by simp)
      · next hcore =>
        rcases Option.some.inj h with rfl
        constructor
        · have : dropTrailingDashes ((s.drop pfx.length).takeWhile isTokenChar) ≠ [] := hcore
          have hlen : 0 < (dropTrailingDashes ((s.drop pfx.length).takeWhile isTokenChar)).length :=
            List.length_pos.mpr this
          omega
        · have h1 : (dropTrailingDashes ((s.drop pfx.length).takeWhile isTokenChar)).length ≤
              ((s.drop pfx.length).takeWhile isTokenChar).length := by
            unfold dropTrailingDashes
            calc ((((s.drop pfx.length).takeWhile isTokenChar).reverse.dropWhile
                    (fun c => c == '-')).reverse).length
                = (((s.drop pfx.length).takeWhile isTokenChar).reverse.dropWhile
                    (fun c => c == '-')).length := List.length_reverse _
              _ ≤ ((s.drop pfx.length).takeWhile isTokenChar).reverse.length :=
                  (List.dropWhile_suffix _).length_le
              _ = ((s.drop pfx.length).takeWhile isTokenChar).length := List.length_reverse _
          have h2 : ((s.drop pfx.length).takeWhile isTokenChar).length ≤ (s.drop pfx.length).length :=
            (List.takeWhile_prefix _).length_le
          have h3 : pfx.length ≤ s.length := List.IsPrefix.length_le (List.isPrefixOf_iff_prefix.mp hpre)
          have h4 : (s.drop pfx.length).length = s.length - pfx.length := List.length_drop _ _
          omega
    · exact absurd h (by simp)

theorem bearerMatchLen_bounds {s : Text} {n : Nat}
    (h : bearerMatchLen s = some n) : 0 < n ∧ n ≤ s.length := by
  unfold bearerMatchLen at h
  split at h
  · next hpre =>
    simp only at h
    split at h
    · exact absurd h (by simp)
    · split at h
      · exact absurd h (by simp)
      · rcases Option.some.inj h with rfl
        have h3 : ("Bearer".data).length ≤ s.length :=
          List.IsPrefix.length_le (List.isPrefixOf_iff_prefix.mp hpre)
        have h3' : ("Bearer".data).length = 6 := rfl
        have hsp : ((s.drop 6).takeWhile isJsSpace).length ≤ (s.drop 6).length :=
          (List.takeWhile_prefix _).length_le
        have hrun : (((s.drop 6).drop ((s.drop 6).takeWhile isJsSpace).length).takeWhile
            isTokenChar).length ≤ ((s.drop 6).drop ((s.drop 6).takeWhile isJsSpace).length).length :=
          (List.takeWhile_prefix _).length_le
        have h4 : (s.drop 6).length = s.length - 6 := List.length_drop _ _
        have h5 : ((s.drop 6).drop ((s.drop 6).takeWhile isJsSpace).length).length =
            (s.drop 6).length - ((s.drop 6).takeWhile isJsSpace).length := List.length_drop _ _
        rw [h3'] at h3
        exact ⟨by omega, by omega⟩
  · exact absurd h (by simp)

theorem hexMatchLen_bounds {prev : Option Char} {s : Text} {n : Nat}
    (h : hexMatchLen prev s = some n) : 0 < n ∧ n ≤ s.length := by
  unfold hexMatchLen at h
  split at h
  · exact absurd h (by simp)
  · simp only at h
    split at h
    · exact absurd h (by simp)
    · next hge =>
      have hle : (s.takeWhile isHexIChar).length ≤ s.length := (List.takeWhile_prefix _).length_le
      split at h
      · rcases Option.some.inj h with rfl
        omega
      · split at h
        · exact absurd h (by simp)
        · rcases Option.some.inj h with rfl
          omega

/-- One global-replace pass for `\b PFX [A-Za-z0-9_-]+ \b` → `[REDACTED]`.
`prev` is the character just before `s` in the original string (word-boundary
context); matching always happens against the original text, as in
JavaScript's `String.prototype.replace`. -/
def replaceToken (pfx : Text) : Option Char → Text → Text
  | _, [] => []
  | prev, c :: rest =>
    match h : tokenMatchLen pfx prev (c :: rest) with
    | some n =>
      redactedText ++ replaceToken pfx ((c :: rest).take n).getLast? ((c :: rest).drop n)
    | none => c :: replaceToken pfx (some c) rest
termination_by _ s => s.length
decreasing_by
  · have := tokenMatchLen_bounds h
    simp only [List.length_drop, List.length_cons]
    omega
  · simp [Nat.lt_succ_self]

/-- One global-replace pass for `Bearer\s+[A-Za-z0-9_-]+` → `Bearer [REDACTED]`. -/
def replaceBearer : Text → Text
  | [] => []
  | c :: rest =>
    match h : bearerMatchLen (c :: rest) with
    | some n => bearerRedactedText ++ replaceBearer ((c :: rest).drop n)
    | none => c :: replaceBearer rest
termination_by s => s.length
decreasing_by
  · have := bearerMatchLen_bounds h
    simp only [List.length_drop, List.length_cons]
    omega
  · simp [Nat.lt_succ_self]

/-- One global-replace pass for `\b[a-f0-9]{40,}\b` (case-insensitive) → `[REDACTED]`. -/
def replaceHex : Option Char → Text → Text
  | _, [] => []
  | prev, c :: rest =>
    match h : hexMatchLen prev (c :: rest) with
    | some n =>
      redactedText ++ replaceHex ((c :: rest).take n).getLast? ((c :: rest).drop n)
    | none => c :: replaceHex (some c) rest
termination_by _ s => s.length
decreasing_by
  · have := hexMatchLen_bounds h
    simp only [List.length_drop, List.length_cons]
    omega
  · simp [Nat.lt_succ_self]

/-- `sanitizeMessage` from `errors.ts`: the four replacements chained in
source order (ntn tokens, secret tokens, Bearer tokens, long hex strings). -/
def sanitizeMessage (message : Text) : Text :=
  replaceHex none
    (replaceBearer
      (replaceToken ("secret_".data) none
        (replaceToken ("ntn_".data) none message)))

/-- Does one of the pattern matches (given by per-position matcher `mp`)
start anywhere in `s`, where `prev` is the character before `s`?  This is
`regex.test` for the patterns above, defined independently of the
replacement scans. -/
def existsMatch (mp : Option Char → Text → Option Nat) : Option Char → Text → Bool
  | prev, [] => (mp prev []).isSome
  | prev, c :: rest => (mp prev (c :: rest)).isSome || existsMatch mp (some c) rest

/-- No secret-shaped substring occurs in `s`: no position of `s` starts a
match of `\b(ntn_[A-Za-z0-9_-]+)\b`, `\b(secret_[A-Za-z0-9_-]+)\b`,
`Bearer\s+[A-Za-z0-9_-]+` or `\b[a-f0-9]{40,}\b` (case-insensitive). -/
def secretFree (s : Text) : Prop :=
  existsMatch (tokenMatchLen ("ntn_".data)) none s = false ∧
  existsMatch (tokenMatchLen ("secret_".data)) none s = false ∧
  existsMatch (fun _ x => bearerMatchLen x) none s = false ∧
  existsMatch hexMatchLen none s = false

/-- A pass over match-free text is the identity. -/
theorem replaceToken_eq_self (pfx : Text) :
    ∀ (N : Nat) (prev : Option Char) (s : Text), s.length ≤ N →
      existsMatch (tokenMatchLen pfx) prev s = false → replaceToken pfx prev s = s := by
  intro N
  induction N with
  | zero =>
    intro prev s hlen h
    cases s with
    | nil => rw [replaceToken]
    | cons c rest => simp at hlen
  | succ N ih =>
    intro prev s hlen h
    cases s with
    | nil => rw [replaceToken]
    | cons c rest =>
      rw [existsMatch] at h
      rcases Bool.or_eq_false_iff.mp h with ⟨h1, h2⟩
      rw [replaceToken]
      split
      · next n heq => rw [heq] at h1; simp at h1
      · next heq =>
        rw [ih (some c) rest (by simp at hlen; omega) h2]

/-- A Bearer pass over match-free text is the identity. -/
theorem replaceBearer_eq_self :
    ∀ (N : Nat) (s : Text), s.length ≤ N →
      existsMatch (fun _ t => bearerMatchLen t) none s = false → replaceBearer s = s := by
  intro N
  induction N with
  | zero =>
    intro s hlen h
    cases s with
    | nil => rw [replaceBearer]
    | cons c rest => simp at hlen
  | succ N ih =>
    intro s hlen h
    cases s with
    | nil => rw [replaceBearer]
    | cons c rest =>
      rw [existsMatch] at h
      rcases Bool.or_eq_false_iff.mp h with ⟨h1, h2⟩
      rw [replaceBearer]
      split
      · next n heq => rw [heq] at h1; simp at h1
      · next heq =>
        have h2' : existsMatch (fun _ t => bearerMatchLen t) none rest = false := by
          cases rest with
          | nil => simpa [existsMatch] using h2
          | cons d rest' => simpa [existsMatch] using h2
        rw [ih rest (by simp at hlen; omega) h2']

/-- A hex pass over match-free text is the identity. -/
theorem replaceHex_eq_self :
    ∀ (N : Nat) (prev : Option Char) (s : Text), s.length ≤ N →
      existsMatch hexMatchLen prev s = false → replaceHex prev s = s := by
  intro N
  induction N with
  | zero =>
    intro prev s hlen h
    cases s with
    | nil => rw [replaceHex]
    | cons c rest => simp at hlen
  | succ N ih =>
    intro prev s hlen h
    cases s with
    | nil => rw [replaceHex]
    | cons c rest =>
      rw [existsMatch] at h
      rcases Bool.or_eq_false_iff.mp h with ⟨h1, h2⟩
      rw [replaceHex]
      split
      · next n heq => rw [heq] at h1; simp at h1
      · next heq =>
        rw [ih (some c) rest (by simp at hlen; omega) h2]

/-- `sanitizeMessage` leaves a message with no secret-shaped token unchanged. -/
theorem sanitizeMessage_eq_self (m : Text)
    (h1 : existsMatch (tokenMatchLen ("ntn_".data)) none m = false)
    (h2 : existsMatch (tokenMatchLen ("secret_".data)) none m = false)
    (h3 : existsMatch (fun _ t => bearerMatchLen t) none m = false)
    (h4 : existsMatch hexMatchLen none m = false) :
    sanitizeMessage m = m := by
  unfold sanitizeMessage
  rw [replaceToken_eq_self _ m.length none m (le_refl _) h1,
    replaceToken_eq_self _ m.length none m (le_refl _) h2,
    replaceBearer_eq_self m.length m (le_refl _) h3,
    replaceHex_eq_self m.length none m (le_refl _) h4]

/-!
## Error classes (`errors.ts`)

`CliError` and its subclasses are modelled as a record; each constructor
stores the sanitised message, exactly as `super(sanitizeMessage(message))`
does in the source. Exit codes are the values asserted by the test suite
(GENERAL_ERROR 1, VALIDATION_ERROR 2, AUTH_ERROR 3, NOT_FOUND 4, RATE_LIMITED 5).
-/

/-- Decimal digits of a natural number, as JavaScript `String(n)` renders it. -/
def natDigits (n : Nat) : Text :=
  if h : n < 10 then [Nat.digitChar n]
  else natDigits (n / 10) ++ [Nat.digitChar (n % 10)]
decreasing_by
  exact Nat.div_lt_self (by omega) (by omega)

/-- JavaScript `String(n)` for a (possibly negative) integer. -/
def intDigits (n : Int) : Text :=
  if n < 0 then '-' :: natDigits (-n).toNat else natDigits n.toNat

/-- A constructed CLI error: name, structured code, process exit code, the
(sanitised) message, and the rate-limit subclass's extra field. -/
structure CliError where
  name : Text
  code : Text
  exitCode : Int
  message : Text
  retryAfterMs : Option Nat
deriving DecidableEq, Repr

/-- The `CliError` base constructor: `super(sanitizeMessage(message))`. -/
def mkCliError (message code : Text) (exitCode : Int) : CliError :=
  { name := "CliError".data
    code := code
    exitCode := exitCode
    message := sanitizeMessage message
    retryAfterMs := none }

def authErrorDefaultMessage : Text :=
  "Authentication failed. Set NOTION_TOKEN or use --token.".data

def mkAuthError (message : Text) : CliError :=
  { mkCliError message ("AUTH_ERROR".data) 3 with name := "AuthError".data }

def mkValidationError (message : Text) : CliError :=
  { mkCliError message ("VALIDATION_ERROR".data) 2 with name := "ValidationError".data }

def mkNotFoundError (resource id : Text) : CliError :=
  { mkCliError (resource ++ " not found: ".data ++ id) ("NOT_FOUND".data) 4 with
      name := "NotFoundError".data }

/-- `RateLimitError(retryAfterMs)`: message renders `Math.ceil(ms / 1000)`. -/
def mkRateLimitError (retryAfterMs : Nat) : CliError :=
  { mkCliError
      ("Rate limited by Notion API. Retry after ".data ++
        natDigits ((retryAfterMs + 999) / 1000) ++ "s.".data)
      ("RATE_LIMITED".data) 5 with
      name := "RateLimitError".data
      retryAfterMs := some retryAfterMs }

def patchConflictDefaultMessage : Text :=
  "Patch cannot be applied: page content has changed since last read.".data

def mkPatchConflictError (message : Text) : CliError :=
  { mkCliError message ("PATCH_CONFLICT".data) 1 with name := "PatchConflictError".data }

/-- The error object thrown by the Notion client, as `toCliError` sees it:
an `Error` whose extra `status` / `code` fields may be present.
The `retryAfterHintMs` field is modelled from the spec: it stands for a
server-provided retry-after hint (e.g. a Retry-After header) that a 429
response may carry on the thrown error object; the TypeScript `toCliError`
never reads any such field. -/
structure JsErrorish where
  message : Text
  status : Option Int
  code : Option Text
  retryAfterHintMs : Option Nat
deriving DecidableEq, Repr

/-- A thrown JavaScript value: an existing `CliError`, an `Error` with
Notion API fields, or a non-`Error` value rendered by `String(err)`. -/
inductive Thrown where
  | cli (e : CliError)
  | js (e : JsErrorish)
  | nonError (text : Text)
deriving DecidableEq, Repr

/-- `toCliError` from `errors.ts`. -/
def toCliError : Thrown → CliError
  | .cli e => e
  | .js e =>
    if e.status = some 401 ∨ e.code = some ("unauthorized".data) then
      mkAuthError authErrorDefaultMessage
    else if e.status = some 404 ∨ e.code = some ("object_not_found".data) then
      mkNotFoundError ("Resource".data) ("unknown".data)
    else if e.status = some 429 then
      mkRateLimitError 1000
    else
      mkCliError e.message ("GENERAL_ERROR".data) 1
  | .nonError t => mkCliError t ("GENERAL_ERROR".data) 1

/-!
## Patch engine (`patch.ts`)

The `diff` npm package is an external collaborator: `createTwoFilesPatch`
and `applyPatch` are taken as parameters (`DiffAlgo`, `PatchApplyAlgo`)
rather than reimplemented, exactly as the spec treats them.
-/

/-- `createTwoFilesPatch(oldFileName, newFileName, oldStr, newStr, oldHeader,
newHeader, {context})` from the `diff` package, abstracted. -/
abbrev DiffAlgo := Text → Text → Text → Text → Text → Text → Nat → Text

/-- `applyPatch(source, patch, {fuzzFactor})` from the `diff` package,
abstracted; `none` models its `false` return on failure. -/
abbrev PatchApplyAlgo := Text → Text → Nat → Option Text

/-- Result of applying a patch (`PatchResult` in `patch.ts`). -/
structure PatchResult where
  patched : Text
  diff : Text
  linesChanged : Nat
deriving DecidableEq, Repr

/-- Clamp an index for `Array.prototype.slice`: negative indices count from
the end, and everything is clamped into `[0, len]`. -/
def jsSliceIdx (len : Nat) (i : Int) : Nat :=
  if i < 0 then ((len : Int) + i).toNat else min i.toNat len

/-- `l.slice(b, e)` from JavaScript. -/
def jsSlice {α : Type} (l : List α) (b e : Int) : List α :=
  (l.take (jsSliceIdx l.length e)).drop (jsSliceIdx l.length b)

/-- The changed-line count loop of `buildResult`: added lines (`+` but not
`+++`) plus removed lines (`-` but not `---`). -/
def countChanged (diff : Text) : Nat :=
  ((splitLines diff).filter
      (fun l => ("+".data).isPrefixOf l && !(("+++".data).isPrefixOf l))).length +
  ((splitLines diff).filter
      (fun l => ("-".data).isPrefixOf l && !(("---".data).isPrefixOf l))).length

/-- `buildResult` from `patch.ts`: diff between original and patched with
labels `before`/`after`, empty headers, 3 lines of context. -/
def buildResult (ctfp : DiffAlgo) (original patched : Text) : PatchResult :=
  let diff := ctfp ("before".data) ("after".data) original patched [] [] 3
  { patched := patched, diff := diff, linesChanged := countChanged diff }

/-- The `end` bound of a line range; `inf` is JavaScript's `Infinity`,
the end-of-document sentinel. -/
inductive LineRangeEnd where
  | val (n : Int)
  | inf
deriving DecidableEq, Repr

/-- `PatchOperation` from `types.ts`: the four patch modes. -/
inductive PatchOperation where
  | lines (start : Int) («end» : LineRangeEnd) (content : Text)
  | diff (patch : Text)
  | append (content : Text)
  | prepend (content : Text)
deriving DecidableEq, Repr

def lineRangeStartMessage : Text := "Line range start must be >= 1.".data

def startExceedsMessage (start : Int) (totalLines : Nat) : Text :=
  "Start line ".data ++ intDigits start ++ " exceeds document length (".data ++
    natDigits totalLines ++ " lines).".data

/-- Mode 1 (`applyLineRange`): replace 1-indexed inclusive line range
`[start, end]` with the lines of `content`. -/
def applyLineRange (ctfp : DiffAlgo) (original : Text) (start : Int)
    (e : LineRangeEnd) (content : Text) : Except CliError PatchResult :=
  let lines := splitLines original
  let totalLines := lines.length
  if start < 1 then .error (mkValidationError lineRangeStartMessage)
  else
    let effectiveEnd : Int :=
      match e with
      | .inf => totalLines
      | .val n => min n (totalLines : Int)
    if start > (totalLines : Int) + 1 then
      .error (mkValidationError (startExceedsMessage start totalLines))
    else
      let before := jsSlice lines 0 (start - 1)
      let after := jsSlice lines effectiveEnd (totalLines : Int)
      let newLines := if content = [] then [] else splitLines content
      .ok (buildResult ctfp original (joinLines (before ++ newLines ++ after)))

def patchFailedMessage : Text :=
  ("Failed to apply patch. The page content may have changed since the diff was created. " ++
    "Re-read the page with `page read --numbered-lines` and create a new diff.").data

/-- Mode 2 (`applyUnifiedDiff`): delegate to `applyPatch` with
`fuzzFactor: 2`; a `false` result becomes a `PatchConflictError`. -/
def applyUnifiedDiff (ap : PatchApplyAlgo) (ctfp : DiffAlgo)
    (original patch : Text) : Except CliError PatchResult :=
  match ap original patch 2 with
  | none => .error (mkPatchConflictError patchFailedMessage)
  | some result => .ok (buildResult ctfp original result)

/-- Mode 3 (`applyAppend`): insert a newline first unless `original`
already ends with one. -/
def applyAppend (ctfp : DiffAlgo) (original content : Text) :
    Except CliError PatchResult :=
  let patched :=
    if original.getLast? = some '\n' then original ++ content
    else original ++ '\n' :: content
  .ok (buildResult ctfp original patched)

/-- Mode 4 (`applyPrepend`): always `content`, one newline, `original`. -/
def applyPrepend (ctfp : DiffAlgo) (original content : Text) :
    Except CliError PatchResult :=
  .ok (buildResult ctfp original (content ++ '\n' :: original))

/-- `applyPatchOperation` from `patch.ts`: dispatch on the operation mode. -/
def applyPatchOperation (ap : PatchApplyAlgo) (ctfp : DiffAlgo)
    (original : Text) : PatchOperation → Except CliError PatchResult
  | .lines start e content => applyLineRange ctfp original start e content
  | .diff patch => applyUnifiedDiff ap ctfp original patch
  | .append content => applyAppend ctfp original content
  | .prepend content => applyPrepend ctfp original content

/-!
## Numbered-line transform (`markdown.ts`)
-/

/-- `String.prototype.padStart(width)`: left-pad with spaces. -/
def padStartWith (l : Text) (w : Nat) : Text := List.replicate (w - l.length) ' ' ++ l

/-- `addLineNumbers`: prefix every line with its right-aligned 1-based index
and `": "`. -/
def addLineNumbers (markdown : Text) : Text :=
  let lines := splitLines markdown
  let padWidth := (natDigits lines.length).length
  joinLines (lines.enum.map
    (fun p => padStartWith (natDigits (p.1 + 1)) padWidth ++ ':' :: ' ' :: p.2))

/-- The per-line replacement `line.replace(/^\s*\d+:\s?/, '')` of
`stripLineNumbers`: deterministic reading of the anchored regex. -/
def stripLineNumber (line : Text) : Text :=
  let w := line.takeWhile isJsSpace
  let r1 := line.drop w.length
  let d := r1.takeWhile isDigitChar
  if d = [] then line
  else
    match r1.drop d.length with
    | ':' :: r2 =>
      match r2 with
      | c :: r3 => if isJsSpace c then r3 else r2
      | [] => []
    | _ => line

/-- `stripLineNumbers`: strip the `N: ` prefix from every line. -/
def stripLineNumbers (numbered : Text) : Text :=
  joinLines ((splitLines numbered).map stripLineNumber)

/-!
## Helper lemmas about `jsSlice`
-/

theorem jsSlice_zero_take {α : Type} (l : List α) (e : Int)
    (h0 : 0 ≤ e) (hle : e ≤ (l.length : Int)) :
    jsSlice l 0 e = l.take e.toNat := by
  unfold jsSlice jsSliceIdx
  have he : ¬(e < 0) := by omega
  have h1 : e.toNat ≤ l.length := by omega
  simp [he, Nat.min_eq_left h1]

theorem jsSlice_drop {α : Type} (l : List α) (b : Int) (h0 : 0 ≤ b) :
    jsSlice l b (l.length : Int) = l.drop b.toNat := by
  unfold jsSlice jsSliceIdx
  have hb : ¬(b < 0) := by omega
  have he : ¬((l.length : Int) < 0) := by omega
  simp only [if_neg hb, if_neg he, Int.toNat_natCast, Nat.min_self, List.take_length]
  rcases Nat.le_total b.toNat l.length with h | h
  · rw [Nat.min_eq_left h]
  · rw [Nat.min_eq_right h, List.drop_length_le h, List.drop_length_le (le_refl _)]

/-- Substring test: `pat` occurs contiguously somewhere in the string. -/
def containsSeq (pat : Text) : Text → Bool
  | [] => pat.isPrefixOf []
  | c :: rest => pat.isPrefixOf (c :: rest) || containsSeq pat rest

/-!
## Claim theorems
-/

/-- Shared computation: a valid line-range operation succeeds with the
take/content/drop decomposition of the patched text. -/
theorem applyLineRange_ok_eq
    (ap : PatchApplyAlgo) (ctfp : DiffAlgo) (original content : Text)
    (start : Int) (e : LineRangeEnd)
    (h1 : 1 ≤ start) (h2 : start ≤ ((splitLines original).length : Int) + 1)
    (h3 : match e with | .val n => start ≤ n | .inf => True) :
    (applyPatchOperation ap ctfp original (.lines start e content)).map (fun r => r.patched) =
      .ok (joinLines
        ((splitLines original).take (start - 1).toNat ++
          (if content = [] then [] else splitLines content) ++
          (splitLines original).drop
            (match e with
              | .val n => min n ((splitLines original).length : Int)
              | .inf => ((splitLines original).length : Int)).toNat)) := by
  have hlt : ¬(start < 1) := by omega
  have hgt : ¬(start > ((splitLines original).length : Int) + 1) := by omega
  have hbefore : jsSlice (splitLines original) 0 (start - 1) =
      (splitLines original).take (start - 1).toNat :=
    jsSlice_zero_take _ _ (by omega) (by omega)
  cases e with
  | val n =>
    have h3' : start ≤ n := h3
    have hafter : jsSlice (splitLines original) (min n ((splitLines original).length : Int))
        ((splitLines original).length : Int) =
        (splitLines original).drop (min n ((splitLines original).length : Int)).toNat :=
      jsSlice_drop _ _ (by omega)
    simp only [applyPatchOperation, applyLineRange, if_neg hlt, if_neg hgt,
      hbefore, hafter, Except.map, buildResult]
  | inf =>
    have hafter : jsSlice (splitLines original) ((splitLines original).length : Int)
        ((splitLines original).length : Int) =
        (splitLines original).drop ((splitLines original).length : Int).toNat :=
      jsSlice_drop _ _ (by omega)
    simp only [applyPatchOperation, applyLineRange, if_neg hlt, if_neg hgt,
      hbefore, hafter, Except.map, buildResult]

/-- C1: for a line-mode operation with `1 ≤ start ≤ totalLines + 1` and
`end ≥ start` (or the end-of-document sentinel), `applyPatchOperation`
succeeds and the patched text is the first `start - 1` original lines,
then `content`'s lines (empty for empty content), then the original lines
after `effectiveEnd = min(end, totalLines)` (the sentinel resolving to
`totalLines`); lines before `start` and after the clamped end are untouched
and in their original order, and an `end` beyond the document is clamped,
not rejected. -/
theorem applyLineRange_replaces_range
    (ap : PatchApplyAlgo) (ctfp : DiffAlgo) (original content : Text)
    (start : Int) (e : LineRangeEnd)
    (h1 : 1 ≤ start) (h2 : start ≤ ((splitLines original).length : Int) + 1)
    (h3 : match e with | .val n => start ≤ n | .inf => True) :
    (applyPatchOperation ap ctfp original (.lines start e content)).map (fun r => r.patched) =
      .ok (joinLines
        ((splitLines original).take (start - 1).toNat ++
          (if content = [] then [] else splitLines content) ++
          (splitLines original).drop
            (match e with
              | .val n => min n ((splitLines original).length : Int)
              | .inf => ((splitLines original).length : Int)).toNat)) :=
  applyLineRange_ok_eq ap ctfp original content start e h1 h2 h3

/-- Witness for C1 at a concrete input: replacing line 2 of `a\nb\nc` with `X`. -/
theorem applyLineRange_replaces_range_witness :
    (applyPatchOperation (fun _ _ _ => none) (fun _ _ _ _ _ _ _ => [])
        ("a\nb\nc".data) (.lines 2 (.val 2) ("X".data))).map (fun r => r.patched) =
      .ok ("a\nX\nc".data) := by
  have h := applyLineRange_replaces_range (fun _ _ _ => none) (fun _ _ _ _ _ _ _ => [])
      ("a\nb\nc".data) ("X".data) 2 (.val 2) (by decide) (by decide) (by decide)
  rw [h]
  rfl

/-- C2: a line-mode operation throws `ValidationError` exactly when
`start < 1` or `start > totalLines + 1`; `start = 0` always fails with a
message mentioning `start must be >= 1` regardless of `end`; and
`start = totalLines + 1` with non-empty content is a pure append of
`content`'s lines after the last line. -/
theorem applyLineRange_validation_spec
    (ap : PatchApplyAlgo) (ctfp : DiffAlgo) (original content : Text)
    (start : Int) (e : LineRangeEnd) :
    ((∃ err, applyPatchOperation ap ctfp original (.lines start e content) = .error err ∧
        err.code = "VALIDATION_ERROR".data) ↔
      (start < 1 ∨ start > ((splitLines original).length : Int) + 1)) ∧
    (start = 0 →
      ∃ err, applyPatchOperation ap ctfp original (.lines start e content) = .error err ∧
        err.code = "VALIDATION_ERROR".data ∧
        containsSeq ("start must be >= 1".data) err.message = true) ∧
    (start = ((splitLines original).length : Int) + 1 → content ≠ [] →
      (match e with | .val n => start ≤ n | .inf => True) →
      (applyPatchOperation ap ctfp original (.lines start e content)).map (fun r => r.patched) =
        .ok (original ++ '\n' :: content)) := by
  refine ⟨⟨?_, ?_⟩, ?_, ?_⟩
  · rintro ⟨err, herr, hcode⟩
    by_contra hcon
    push_neg at hcon
    obtain ⟨ha, hb⟩ := hcon
    have ha' : ¬(start < 1) := not_lt.mpr ha
    have hb' : ¬(start > ((splitLines original).length : Int) + 1) := not_lt.mpr hb
    simp only [applyPatchOperation, applyLineRange, if_neg ha', if_neg hb'] at herr
    exact Except.noConfusion herr
  · rintro (hlt | hgt)
    · refine ⟨mkValidationError lineRangeStartMessage, ?_, rfl⟩
      simp only [applyPatchOperation, applyLineRange, if_pos hlt]
    · have hlt' : ¬(start < 1) := by omega
      refine ⟨mkValidationError (startExceedsMessage start (splitLines original).length), ?_, rfl⟩
      simp only [applyPatchOperation, applyLineRange, if_neg hlt', if_pos hgt]
  · intro h0
    subst h0
    refine ⟨mkValidationError lineRangeStartMessage, ?_, rfl, ?_⟩
    · simp only [applyPatchOperation, applyLineRange]
      norm_num
    · have hid : (mkValidationError lineRangeStartMessage).message = lineRangeStartMessage := by
        show sanitizeMessage lineRangeStartMessage = lineRangeStartMessage
        apply sanitizeMessage_eq_self <;> decide
      rw [hid]
      decide
  · intro hstart hcontent hend
    rw [applyLineRange_ok_eq ap ctfp original content start e (by omega) (by omega) hend]
    have htake : (start - 1).toNat = (splitLines original).length := by omega
    have hdropidx : (match e with
        | LineRangeEnd.val n => min n ((splitLines original).length : Int)
        | LineRangeEnd.inf => ((splitLines original).length : Int)).toNat =
        (splitLines original).length := by
      cases e with
      | val n =>
        have : start ≤ n := hend
        simp only
        omega
      | inf => simp
    rw [htake, hdropidx, List.take_length, List.drop_length, List.append_nil,
      if_neg hcontent,
      joinLines_append (splitLines original) (splitLines content)
        (splitLines_ne_nil original) (splitLines_ne_nil content),
      joinLines_splitLines original, joinLines_splitLines content]

/-- Witness for C2: `start = 0` rejects on `a\nb`, and `start = 3` on the
two-line document `a\nb` is a pure append. -/
theorem applyLineRange_validation_spec_witness :
    (∃ err, applyPatchOperation (fun _ _ _ => none) (fun _ _ _ _ _ _ _ => [])
        ("a\nb".data) (.lines 0 (.val 1) ("x".data)) = .error err ∧
        err.code = "VALIDATION_ERROR".data ∧
        containsSeq ("start must be >= 1".data) err.message = true) ∧
    (applyPatchOperation (fun _ _ _ => none) (fun _ _ _ _ _ _ _ => [])
        ("a\nb".data) (.lines 3 (.val 5) ("x".data))).map (fun r => r.patched) =
      .ok ("a\nb\nx".data) := by
  constructor
  · exact (applyLineRange_validation_spec (fun _ _ _ => none) (fun _ _ _ _ _ _ _ => [])
      ("a\nb".data) ("x".data) 0 (.val 1)).2.1 rfl
  · have h := (applyLineRange_validation_spec (fun _ _ _ => none) (fun _ _ _ _ _ _ _ => [])
      ("a\nb".data) ("x".data) 3 (.val 5)).2.2 (by decide) (by decide) (by decide)
    rw [h]
    rfl

/-- C10: the empty document counts as one (empty) line: `start = 1` and
`start = 2` succeed on `""` (with `start = 2` a pure insertion after the
empty line), `start ≥ 3` throws `ValidationError`, and a document ending in
a line break has an addressable final empty line. -/
theorem emptyDocument_one_line_spec :
    (splitLines ([] : Text)).length = 1 ∧
    (∀ (ap : PatchApplyAlgo) (ctfp : DiffAlgo) (content : Text) (e : LineRangeEnd),
      ∃ r, applyPatchOperation ap ctfp [] (.lines 1 e content) = .ok r) ∧
    (∀ (ap : PatchApplyAlgo) (ctfp : DiffAlgo) (content : Text) (e : LineRangeEnd),
      ∃ r, applyPatchOperation ap ctfp [] (.lines 2 e content) = .ok r) ∧
    (∀ (ap : PatchApplyAlgo) (ctfp : DiffAlgo) (content : Text) (e : LineRangeEnd),
      content ≠ [] → (match e with | .val n => 2 ≤ n | .inf => True) →
      (applyPatchOperation ap ctfp [] (.lines 2 e content)).map (fun r => r.patched) =
        .ok ('\n' :: content)) ∧
    (∀ (ap : PatchApplyAlgo) (ctfp : DiffAlgo) (content : Text) (e : LineRangeEnd) (start : Int),
      3 ≤ start →
      ∃ err, applyPatchOperation ap ctfp [] (.lines start e content) = .error err ∧
        err.code = "VALIDATION_ERROR".data) ∧
    (∀ s : Text, splitLines (s ++ ['\n']) = splitLines s ++ [[]] ∧
      (splitLines (s ++ ['\n'])).length = (splitLines s).length + 1) := by
  refine ⟨rfl, ?_, ?_, ?_, ?_, ?_⟩
  · intro ap ctfp content e
    cases e with
    | val n => exact ⟨_, rfl⟩
    | inf => exact ⟨_, rfl⟩
  · intro ap ctfp content e
    cases e with
    | val n => exact ⟨_, rfl⟩
    | inf => exact ⟨_, rfl⟩
  · intro ap ctfp content e hcontent hend
    rw [applyLineRange_ok_eq ap ctfp [] content 2 e (by decide) (by decide) hend]
    have hdropidx : (match e with
        | LineRangeEnd.val n => min n ((splitLines ([] : Text)).length : Int)
        | LineRangeEnd.inf => ((splitLines ([] : Text)).length : Int)).toNat = 1 := by
      cases e with
      | val n =>
        have hn : 2 ≤ n := hend
        have hlen : ((splitLines ([] : Text)).length : Int) = 1 := by rfl
        simp only [hlen]
        omega
      | inf => rfl
    rw [hdropidx, if_neg hcontent]
    have htake : (splitLines ([] : Text)).take ((2 : Int) - 1).toNat = [[]] := rfl
    have hdrop : (splitLines ([] : Text)).drop 1 = [] := rfl
    rw [htake, hdrop, List.append_nil]
    cases hc : splitLines content with
    | nil => exact absurd hc (splitLines_ne_nil content)
    | cons b t =>
      have : joinLines ([] :: b :: t) = [] ++ '\n' :: joinLines (b :: t) :=
        joinLines_cons_cons [] b t
      rw [List.cons_append, List.nil_append, this, ← hc, joinLines_splitLines content]
      rfl
  · intro ap ctfp content e start hstart
    have h1 : ¬(start < 1) := by omega
    have h2 : start > ((splitLines ([] : Text)).length : Int) + 1 := by
      have hlen : ((splitLines ([] : Text)).length : Int) = 1 := by rfl
      rw [hlen]
      omega
    refine ⟨mkValidationError (startExceedsMessage start (splitLines ([] : Text)).length),
      ?_, rfl⟩
    simp only [applyPatchOperation, applyLineRange, if_neg h1, if_pos h2]
  · intro s
    refine ⟨splitLines_append_newline_nil s, ?_⟩
    rw [splitLines_append_newline_nil s, List.length_append, List.length_singleton]

/-- Witness for C10 at concrete inputs: on the empty document, `start = 2`
inserts `x` after the single empty line, and `start = 3` is rejected. -/
theorem emptyDocument_one_line_spec_witness :
    (applyPatchOperation (fun _ _ _ => none) (fun _ _ _ _ _ _ _ => [])
        ([] : Text) (.lines 2 (.val 2) ("x".data))).map (fun r => r.patched) =
      .ok ('\n' :: "x".data) ∧
    (∃ err, applyPatchOperation (fun _ _ _ => none) (fun _ _ _ _ _ _ _ => [])
        ([] : Text) (.lines 3 (.val 3) ("x".data)) = .error err ∧
        err.code = "VALIDATION_ERROR".data) := by
  constructor
  · exact emptyDocument_one_line_spec.2.2.2.1 (fun _ _ _ => none) (fun _ _ _ _ _ _ _ => [])
      ("x".data) (.val 2) (by decide) (by decide)
  · exact emptyDocument_one_line_spec.2.2.2.2.1 (fun _ _ _ => none) (fun _ _ _ _ _ _ _ => [])
      ("x".data) (.val 3) 3 (by decide)

/-- C4: append concatenates directly when `original` ends with a line break
and inserts exactly one line break otherwise, so appended content always
starts on its own line (shown at the line level on the right conjuncts). -/
theorem applyAppend_spec (ap : PatchApplyAlgo) (ctfp : DiffAlgo) (original content : Text) :
    (original.getLast? = some '\n' →
      (applyPatchOperation ap ctfp original (.append content)).map (fun r => r.patched) =
        .ok (original ++ content) ∧
      splitLines (original ++ content) = (splitLines original).dropLast ++ splitLines content) ∧
    (original.getLast? ≠ some '\n' →
      (applyPatchOperation ap ctfp original (.append content)).map (fun r => r.patched) =
        .ok (original ++ '\n' :: content) ∧
      splitLines (original ++ '\n' :: content) = splitLines original ++ splitLines content) := by
  constructor
  · intro h
    have hne : original ≠ [] := by
      intro h0
      rw [h0] at h
      simp at h
    have hlast : original.getLast hne = '\n' := by
      have := List.getLast?_eq_getLast original hne
      rw [this] at h
      exact Option.some.inj h
    have horig : original.dropLast ++ ['\n'] = original := by
      have := List.dropLast_append_getLast hne
      rw [hlast] at this
      exact this
    constructor
    · simp only [applyPatchOperation, applyAppend, if_pos h, Except.map, buildResult]
    · conv_lhs => rw [← horig]
      conv_rhs => rw [← horig]
      rw [List.append_assoc, List.singleton_append, splitLines_append_newline,
        splitLines_append_newline_nil, List.dropLast_concat]
  · intro h
    constructor
    · simp only [applyPatchOperation, applyAppend, if_neg h, Except.map, buildResult]
    · exact splitLines_append_newline original content

/-- Witness for C4: appending `x` to `a\n` (trailing break: no blank line)
and to `a` (no trailing break: one break inserted). -/
theorem applyAppend_spec_witness :
    ((applyPatchOperation (fun _ _ _ => none) (fun _ _ _ _ _ _ _ => [])
        ("a\n".data) (.append ("x".data))).map (fun r => r.patched) =
      .ok ("a\nx".data) ∧
      splitLines ("a\n".data ++ "x".data) =
        (splitLines ("a\n".data)).dropLast ++ splitLines ("x".data)) ∧
    ((applyPatchOperation (fun _ _ _ => none) (fun _ _ _ _ _ _ _ => [])
        ("a".data) (.append ("x".data))).map (fun r => r.patched) =
      .ok ("a\nx".data) ∧
      splitLines ("a".data ++ '\n' :: "x".data) =
        splitLines ("a".data) ++ splitLines ("x".data)) := by
  constructor
  · have h := (applyAppend_spec (fun _ _ _ => none) (fun _ _ _ _ _ _ _ => [])
      ("a\n".data) ("x".data)).1 (by decide)
    exact ⟨h.1, h.2⟩
  · have h := (applyAppend_spec (fun _ _ _ => none) (fun _ _ _ _ _ _ _ => [])
      ("a".data) ("x".data)).2 (by decide)
    exact ⟨h.1, h.2⟩

/-- C5: prepend always produces `content`, exactly one line break, then
`original`, regardless of leading whitespace or emptiness; at the line
level the new lines sit strictly before all original lines. -/
theorem applyPrepend_spec (ap : PatchApplyAlgo) (ctfp : DiffAlgo) (original content : Text) :
    (applyPatchOperation ap ctfp original (.prepend content)).map (fun r => r.patched) =
      .ok (content ++ '\n' :: original) ∧
    splitLines (content ++ '\n' :: original) = splitLines content ++ splitLines original := by
  constructor
  · simp only [applyPatchOperation, applyPrepend, Except.map, buildResult]
  · exact splitLines_append_newline content original

/-- C3: applying a diff-mode operation either succeeds with the library
result (when `applyPatch` with fuzz factor 2 locates the context) or fails
with a `PatchConflictError` whose message carries the re-read guidance;
no other outcome occurs. -/
theorem applyUnifiedDiff_spec (ap : PatchApplyAlgo) (ctfp : DiffAlgo) (original patch : Text) :
    (∃ r, ap original patch 2 = some r ∧
        applyPatchOperation ap ctfp original (.diff patch) = .ok (buildResult ctfp original r)) ∨
    (ap original patch 2 = none ∧
      ∃ err, applyPatchOperation ap ctfp original (.diff patch) = .error err ∧
        err.code = "PATCH_CONFLICT".data ∧
        containsSeq ("Re-read the page".data) err.message = true ∧
        containsSeq ("create a new diff".data) err.message = true) := by
  cases hap : ap original patch 2 with
  | none =>
    right
    refine ⟨rfl, mkPatchConflictError patchFailedMessage, ?_, rfl, ?_, ?_⟩
    · simp only [applyPatchOperation, applyUnifiedDiff]
      rw [hap]
    · have hid : (mkPatchConflictError patchFailedMessage).message = patchFailedMessage := by
        show sanitizeMessage patchFailedMessage = patchFailedMessage
        apply sanitizeMessage_eq_self <;> decide
      rw [hid]
      decide
    · have hid : (mkPatchConflictError patchFailedMessage).message = patchFailedMessage := by
        show sanitizeMessage patchFailedMessage = patchFailedMessage
        apply sanitizeMessage_eq_self <;> decide
      rw [hid]
      decide
  | some r =>
    left
    exact ⟨r, rfl, by simp only [applyPatchOperation, applyUnifiedDiff, hap]⟩

theorem filter_length_split {α : Type} (p q : α → Bool) (l : List α) :
    (l.filter p).length =
      (l.filter (fun a => p a && q a)).length +
      (l.filter (fun a => p a && !q a)).length := by
  induction l with
  | nil => simp
  | cons a t ih =>
    by_cases hp : p a = true <;> by_cases hq : q a = true <;>
      simp [List.filter_cons, hp, hq, ih] <;> omega

theorem filter_length_or {α : Type} (p q : α → Bool) (l : List α)
    (hdisj : ∀ a ∈ l, ¬(p a = true ∧ q a = true)) :
    (l.filter (fun a => p a || q a)).length = (l.filter p).length + (l.filter q).length := by
  induction l with
  | nil => simp
  | cons a t ih =>
    have hd := hdisj a (List.mem_cons_self a t)
    have iht := ih (fun x hx => hdisj x (List.mem_cons_of_mem a hx))
    by_cases hp : p a = true
    · by_cases hq : q a = true
      · exact absurd ⟨hp, hq⟩ hd
      · simp [List.filter_cons, hp, hq, iht]
        omega
    · by_cases hq : q a = true <;> simp [List.filter_cons, hp, hq, iht] <;> omega

theorem filter_length_and_of_imp {α : Type} (p q : α → Bool) (l : List α)
    (himp : ∀ a ∈ l, q a = true → p a = true) :
    (l.filter (fun a => p a && q a)).length = (l.filter q).length := by
  induction l with
  | nil => simp
  | cons a t ih =>
    have hd := himp a (List.mem_cons_self a t)
    have iht := ih (fun x hx => himp x (List.mem_cons_of_mem a hx))
    by_cases hp : p a = true <;> by_cases hq : q a = true <;>
      simp [List.filter_cons, hp, hq, iht]
    exact absurd (hd hq) hp

theorem plusHeader_isPlus (l : Text) (h : ("+++".data).isPrefixOf l = true) :
    ("+".data).isPrefixOf l = true := by
  rw [List.isPrefixOf_iff_prefix] at h ⊢
  exact List.IsPrefix.trans (by simp) h

theorem minusHeader_isMinus (l : Text) (h : ("---".data).isPrefixOf l = true) :
    ("-".data).isPrefixOf l = true := by
  rw [List.isPrefixOf_iff_prefix] at h ⊢
  exact List.IsPrefix.trans (by simp) h

theorem plus_minus_disjoint (l : Text) :
    ¬(("+".data).isPrefixOf l = true ∧ ("-".data).isPrefixOf l = true) := by
  rintro ⟨h1, h2⟩
  rw [List.isPrefixOf_iff_prefix] at h1 h2
  rcases h1 with ⟨t1, h1⟩
  rcases h2 with ⟨t2, h2⟩
  rw [← h1] at h2
  simp at h2

/-- When the diff body has exactly one `+++` line and one `---` line (the
two file headers), the source's count equals "all `+`/`-` lines minus the
two headers". -/
theorem countChanged_eq_pm_sub_two (d : Text)
    (hplus : ((splitLines d).filter (fun l => ("+++".data).isPrefixOf l)).length = 1)
    (hminus : ((splitLines d).filter (fun l => ("---".data).isPrefixOf l)).length = 1) :
    countChanged d =
      ((splitLines d).filter
        (fun l => ("+".data).isPrefixOf l || ("-".data).isPrefixOf l)).length - 2 := by
  have hsplit1 : ((splitLines d).filter (fun l => ("+".data).isPrefixOf l)).length =
      ((splitLines d).filter
        (fun l => ("+".data).isPrefixOf l && ("+++".data).isPrefixOf l)).length +
      ((splitLines d).filter
        (fun l => ("+".data).isPrefixOf l && !(("+++".data).isPrefixOf l))).length :=
    filter_length_split _ _ _
  have hsplit2 : ((splitLines d).filter (fun l => ("-".data).isPrefixOf l)).length =
      ((splitLines d).filter
        (fun l => ("-".data).isPrefixOf l && ("---".data).isPrefixOf l)).length +
      ((splitLines d).filter
        (fun l => ("-".data).isPrefixOf l && !(("---".data).isPrefixOf l))).length :=
    filter_length_split _ _ _
  have hand1 : ((splitLines d).filter
        (fun l => ("+".data).isPrefixOf l && ("+++".data).isPrefixOf l)).length =
      ((splitLines d).filter (fun l => ("+++".data).isPrefixOf l)).length :=
    filter_length_and_of_imp _ _ _ (fun a _ => plusHeader_isPlus a)
  have hand2 : ((splitLines d).filter
        (fun l => ("-".data).isPrefixOf l && ("---".data).isPrefixOf l)).length =
      ((splitLines d).filter (fun l => ("---".data).isPrefixOf l)).length :=
    filter_length_and_of_imp _ _ _ (fun a _ => minusHeader_isMinus a)
  have hor : ((splitLines d).filter
        (fun l => ("+".data).isPrefixOf l || ("-".data).isPrefixOf l)).length =
      ((splitLines d).filter (fun l => ("+".data).isPrefixOf l)).length +
      ((splitLines d).filter (fun l => ("-".data).isPrefixOf l)).length :=
    filter_length_or _ _ _ (fun a _ => plus_minus_disjoint a)
  unfold countChanged
  rw [hand1, hplus] at hsplit1
  rw [hand2, hminus] at hsplit2
  omega

/-- C6: for every successful patch result, `linesChanged` is the count of
diff lines beginning with `+` or `-` excluding the two `+++`/`---` header
lines, on the diff computed between original and patched with 3 lines of
context and empty file labels. -/
theorem buildResult_linesChanged_spec (ctfp : DiffAlgo) (original patched : Text) :
    (buildResult ctfp original patched).diff =
      ctfp ("before".data) ("after".data) original patched [] [] 3 ∧
    (buildResult ctfp original patched).linesChanged =
      countChanged (ctfp ("before".data) ("after".data) original patched [] [] 3) ∧
    ((((splitLines (ctfp ("before".data) ("after".data) original patched [] [] 3)).filter
          (fun l => ("+++".data).isPrefixOf l)).length = 1 ∧
      ((splitLines (ctfp ("before".data) ("after".data) original patched [] [] 3)).filter
          (fun l => ("---".data).isPrefixOf l)).length = 1) →
      (buildResult ctfp original patched).linesChanged =
        ((splitLines (ctfp ("before".data) ("after".data) original patched [] [] 3)).filter
          (fun l => ("+".data).isPrefixOf l || ("-".data).isPrefixOf l)).length - 2) := by
  refine ⟨rfl, rfl, ?_⟩
  rintro ⟨hplus, hminus⟩
  exact countChanged_eq_pm_sub_two _ hplus hminus

/-- Witness for C6 with a diff algorithm returning a fixed realistic diff
body (`--- `, `+++ `, one hunk with one removal and one addition). -/
theorem buildResult_linesChanged_spec_witness :
    (buildResult (fun _ _ _ _ _ _ _ => "--- before\n+++ after\n@@ -1 +1 @@\n-a\n+b\n".data)
        ("a".data) ("b".data)).linesChanged = 2 ∧
    (buildResult (fun _ _ _ _ _ _ _ => "--- before\n+++ after\n@@ -1 +1 @@\n-a\n+b\n".data)
        ("a".data) ("b".data)).linesChanged =
      ((splitLines ("--- before\n+++ after\n@@ -1 +1 @@\n-a\n+b\n".data)).filter
        (fun l => ("+".data).isPrefixOf l || ("-".data).isPrefixOf l)).length - 2 := by
  constructor
  · decide
  · exact (buildResult_linesChanged_spec
      (fun _ _ _ _ _ _ _ => "--- before\n+++ after\n@@ -1 +1 @@\n-a\n+b\n".data)
      ("a".data) ("b".data)).2.2 ⟨by decide, by decide⟩

theorem takeWhile_append_all {p : Char → Bool} {xs : Text} (ys : Text)
    (h : ∀ a ∈ xs, p a = true) : (xs ++ ys).takeWhile p = xs ++ ys.takeWhile p := by
  induction xs with
  | nil => simp
  | cons a t ih =>
    rw [List.cons_append, List.takeWhile_cons, h a (List.mem_cons_self a t),
      ih (fun x hx => h x (List.mem_cons_of_mem a hx))]
    simp

theorem takeWhile_eq_nil_of_head {p : Char → Bool} {y : Char} (ys : Text)
    (h : p y = false) : (y :: ys).takeWhile p = [] := by
  simp [List.takeWhile_cons, h]

theorem natDigits_ne_nil (n : Nat) : natDigits n ≠ [] := by
  rw [natDigits]
  split <;> simp

theorem digitChar_isDigit (d : Nat) (h : d < 10) : isDigitChar (Nat.digitChar d) = true := by
  interval_cases d <;> decide

theorem natDigits_all_digit (n : Nat) : ∀ c ∈ natDigits n, isDigitChar c = true := by
  induction n using Nat.strong_induction_on with
  | _ n ih =>
    rw [natDigits]
    split
    · next h =>
      intro c hc
      rw [List.mem_singleton] at hc
      subst hc
      exact digitChar_isDigit n h
    · next h =>
      intro c hc
      rcases List.mem_append.mp hc with hc | hc
      · exact ih (n / 10) (Nat.div_lt_self (by omega) (by omega)) c hc
      · rw [List.mem_singleton] at hc
        subst hc
        exact digitChar_isDigit (n % 10) (Nat.mod_lt n (by omega))

theorem digit_not_space {c : Char} (h : isDigitChar c = true) : isJsSpace c = false := by
  simp only [isDigitChar, decide_eq_true_eq] at h
  simp only [isJsSpace, Bool.or_eq_false_iff, decide_eq_false_iff_not, not_and, not_le]
  omega

theorem digit_not_newline {c : Char} (h : isDigitChar c = true) : c ≠ '\n' := by
  simp only [isDigitChar, decide_eq_true_eq] at h
  intro hc
  subst hc
  simp at h

theorem space_isJsSpace : isJsSpace ' ' = true := by decide

theorem colon_not_digit : isDigitChar ':' = false := by decide

/-- Stripping the prefix that `addLineNumbers` adds recovers the line,
whatever the line's own content is. -/
theorem stripLineNumber_numbered (k : Nat) (num line : Text)
    (hne : num ≠ []) (hdig : ∀ c ∈ num, isDigitChar c = true) :
    stripLineNumber (List.replicate k ' ' ++ num ++ ':' :: ' ' :: line) = line := by
  have hpadspace : ∀ a ∈ List.replicate k ' ', isJsSpace a = true := by
    intro a ha
    rw [List.eq_of_mem_replicate ha]
    exact space_isJsSpace
  have htw : (List.replicate k ' ' ++ num ++ ':' :: ' ' :: line).takeWhile isJsSpace =
      List.replicate k ' ' := by
    rw [List.append_assoc, takeWhile_append_all _ hpadspace]
    cases num with
    | nil => exact absurd rfl hne
    | cons d num' =>
      rw [List.cons_append,
        takeWhile_eq_nil_of_head _ (digit_not_space (hdig d (List.mem_cons_self d num'))),
        List.append_nil]
  have hdrop : (List.replicate k ' ' ++ num ++ ':' :: ' ' :: line).drop
      (List.replicate k ' ').length = num ++ ':' :: ' ' :: line := by
    rw [List.append_assoc, List.drop_left]
  have htwd : (num ++ ':' :: ' ' :: line).takeWhile isDigitChar = num := by
    rw [takeWhile_append_all _ hdig, takeWhile_eq_nil_of_head _ colon_not_digit,
      List.append_nil]
  have hdropd : (num ++ ':' :: ' ' :: line).drop num.length = ':' :: ' ' :: line :=
    List.drop_left num _
  simp only [stripLineNumber, htw, hdrop, htwd, hdropd, if_neg hne, space_isJsSpace,
    if_pos]

/-- Whether a line begins with optional whitespace, then digits, then a
colon (the shape `stripLineNumbers` would strip from). -/
def startsNumColon (l : Text) : Bool :=
  let r1 := l.drop (l.takeWhile isJsSpace).length
  let d := r1.takeWhile isDigitChar
  !(d.isEmpty) && ((r1.drop d.length).head? == some ':')

/-- C7: `stripLineNumbers (addLineNumbers text) = text` for non-empty text
none of whose lines begins with optional whitespace, digits and a colon.
(The proof shows the round trip holds for every text; the hypotheses are
those of the claim.) -/
theorem stripLineNumbers_addLineNumbers (text : Text)
    (hne : text ≠ [])
    (hclean : ∀ l ∈ splitLines text, startsNumColon l = false) :
    stripLineNumbers (addLineNumbers text) = text := by
  unfold addLineNumbers stripLineNumbers
  set lines := splitLines text with hlines
  set padWidth := (natDigits lines.length).length with hpw
  have hnumfree : ∀ nl ∈ lines.enum.map
      (fun p => padStartWith (natDigits (p.1 + 1)) padWidth ++ ':' :: ' ' :: p.2),
      '\n' ∉ nl := by
    intro nl hnl
    rcases List.mem_map.mp hnl with ⟨p, hp, rfl⟩
    intro hmem
    rcases List.mem_append.mp hmem with hmem | hmem
    · unfold padStartWith at hmem
      rcases List.mem_append.mp hmem with hmem | hmem
      · have := List.eq_of_mem_replicate hmem
        simp at this
      · exact absurd rfl (digit_not_newline (natDigits_all_digit _ _ hmem))
    · rcases List.mem_cons.mp hmem with hc | hmem
      · simp at hc
      · rcases List.mem_cons.mp hmem with hc | hmem
        · simp at hc
        · exact not_mem_splitLines text p.2 (hlines ▸ List.snd_mem_of_mem_enum hp) hmem
  have hennil : lines.enum.map
      (fun p => padStartWith (natDigits (p.1 + 1)) padWidth ++ ':' :: ' ' :: p.2) ≠ [] := by
    have h1 : lines ≠ [] := hlines ▸ splitLines_ne_nil text
    simp only [ne_eq, List.map_eq_nil, List.enum_eq_nil]
    exact h1
  rw [splitLines_joinLines _ hennil hnumfree, List.map_map]
  have hmapid : (lines.enum.map
      ((fun l => stripLineNumber l) ∘
        (fun p => padStartWith (natDigits (p.1 + 1)) padWidth ++ ':' :: ' ' :: p.2))) =
      lines.enum.map Prod.snd := by
    apply List.map_congr_left
    intro p hp
    show stripLineNumber (padStartWith (natDigits (p.1 + 1)) padWidth ++ ':' :: ' ' :: p.2) = p.2
    unfold padStartWith
    exact stripLineNumber_numbered _ _ _ (natDigits_ne_nil _) (natDigits_all_digit _)
  rw [hmapid, List.enum_map_snd, hlines, joinLines_splitLines]

/-- Witness for C7: the round trip on the two-line text `a\nb`. -/
theorem stripLineNumbers_addLineNumbers_witness :
    stripLineNumbers (addLineNumbers ("a\nb".data)) = "a\nb".data :=
  stripLineNumbers_addLineNumbers ("a\nb".data) (by decide) (by decide)

/-- C8 counterexample: a thrown error with HTTP status 429 carrying a
server-provided retry-after hint of 5000 ms is converted to a
`RateLimitError` whose retry-after duration is 1000 ms, not the hint. -/
theorem toCliError_429_ignores_hint :
    (toCliError (.js { message := "Rate limited".data
                       status := some 429
                       code := none
                       retryAfterHintMs := some 5000 })).retryAfterMs = some 1000 ∧
    (toCliError (.js { message := "Rate limited".data
                       status := some 429
                       code := none
                       retryAfterHintMs := some 5000 })).retryAfterMs ≠ some 5000 := by
  constructor
  · rfl
  · intro h
    simp [toCliError, mkRateLimitError, mkCliError] at h

/-- C8 (amended): every remote-call failure with HTTP status 429 (that is
not already a `CliError` and is not classified as an auth or not-found
error by its `code` field) becomes a `RateLimitError` with the fixed base
retry-after duration of 1000 ms, regardless of any server-provided hint. -/
theorem toCliError_429_fixed_base_delay (e : JsErrorish)
    (h429 : e.status = some 429)
    (hcode1 : e.code ≠ some ("unauthorized".data))
    (hcode2 : e.code ≠ some ("object_not_found".data)) :
    toCliError (.js e) = mkRateLimitError 1000 ∧
    (toCliError (.js e)).retryAfterMs = some 1000 ∧
    (toCliError (.js e)).code = "RATE_LIMITED".data := by
  have h1 : ¬(e.status = some 401 ∨ e.code = some ("unauthorized".data)) := by
    rintro (h | h)
    · rw [h429] at h
      simp at h
    · exact hcode1 h
  have h2 : ¬(e.status = some 404 ∨ e.code = some ("object_not_found".data)) := by
    rintro (h | h)
    · rw [h429] at h
      simp at h
    · exact hcode2 h
  have hres : toCliError (.js e) = mkRateLimitError 1000 := by
    simp only [toCliError, if_neg h1, if_neg h2, if_pos h429]
  refine ⟨hres, ?_, ?_⟩ <;> rw [hres] <;> rfl

/-- Witness for the amended C8 at a concrete 429 error carrying a hint. -/
theorem toCliError_429_fixed_base_delay_witness :
    toCliError (.js { message := "throttled".data
                      status := some 429
                      code := none
                      retryAfterHintMs := some 7000 }) = mkRateLimitError 1000 ∧
    (toCliError (.js { message := "throttled".data
                       status := some 429
                       code := none
                       retryAfterHintMs := some 7000 })).retryAfterMs = some 1000 := by
  have h := toCliError_429_fixed_base_delay
    { message := "throttled".data
      status := some 429
      code := none
      retryAfterHintMs := some 7000 } rfl (by simp) (by simp)
  exact ⟨h.1, h.2.1⟩

/-!
## No secret-shaped token survives `sanitizeMessage` (claim C9)

The proof shows, for each of the four patterns, that its own replacement
pass leaves no match, and that the later passes cannot reintroduce one.
-/

/-- The word-boundary context after scanning past `x` (last char of `x`,
or the incoming context when `x` is empty). -/
def ctxAfter (prev : Option Char) (x : Text) : Option Char :=
  match x.getLast? with
  | some c => some c
  | none => prev

theorem ctxAfter_nil (prev : Option Char) : ctxAfter prev [] = prev := rfl

theorem ctxAfter_cons (prev : Option Char) (c : Char) (u : Text) :
    ctxAfter prev (c :: u) = ctxAfter (some c) u := by
  unfold ctxAfter
  cases hu : u.getLast? with
  | none =>
    have : u = [] := by
      cases u with
      | nil => rfl
      | cons d t => simp [List.getLast?_cons_cons] at hu <;> cases t <;> simp_all
    subst this
    simp
  | some d =>
    have : (c :: u).getLast? = some d := by
      cases u with
      | nil => simp at hu
      | cons e t => rw [List.getLast?_cons_cons, hu]
    rw [this]

theorem getLast?_cons_eq_ctxAfter (c : Char) (u : Text) :
    (c :: u).getLast? = ctxAfter (some c) u := by
  rw [← ctxAfter_cons (some c) c u]
  unfold ctxAfter
  cases h : (c :: u).getLast? with
  | none => simp at h
  | some d => rfl

theorem existsMatch_nil (mp : Option Char → Text → Option Nat) (prev : Option Char) :
    existsMatch mp prev [] = (mp prev []).isSome := rfl

theorem existsMatch_cons (mp : Option Char → Text → Option Nat) (prev : Option Char)
    (c : Char) (t : Text) :
    existsMatch mp prev (c :: t) = ((mp prev (c :: t)).isSome || existsMatch mp (some c) t) :=
  rfl

/-- A match-free string stays match-free on every suffix, with the correct
scanning context. -/
theorem existsMatch_append_false (mp : Option Char → Text → Option Nat)
    (x : Text) : ∀ (prev : Option Char) (y : Text),
    existsMatch mp prev (x ++ y) = false → existsMatch mp (ctxAfter prev x) y = false := by
  induction x with
  | nil => intro prev y h; exact h
  | cons c t ih =>
    intro prev y h
    rw [List.cons_append, existsMatch_cons, Bool.or_eq_false_iff] at h
    rw [ctxAfter_cons]
    exact ih (some c) y h.2

theorem existsMatch_cons_false (mp : Option Char → Text → Option Nat)
    {prev : Option Char} {c : Char} {t : Text}
    (h1 : mp prev (c :: t) = none) (h2 : existsMatch mp (some c) t = false) :
    existsMatch mp prev (c :: t) = false := by
  rw [existsMatch_cons, h1]
  simp [h2]

theorem tokLen_none_of_word_prev {π : Text} {p : Char} (s : Text)
    (h : isWordChar p = true) : tokenMatchLen π (some p) s = none := by
  unfold tokenMatchLen
  rw [if_pos]
  exact h

theorem tokLen_none_of_not_isPrefixOf {π : Text} (prev : Option Char) {s : Text}
    (h : π.isPrefixOf s = false) : tokenMatchLen π prev s = none := by
  unfold tokenMatchLen
  split
  · rfl
  · rw [if_neg]
    simp [h]

theorem isPrefixOf_cons_head {πh : Char} {πt : Text} {c : Char} (x : Text)
    (h : c ≠ πh) : (πh :: πt).isPrefixOf (c :: x) = false := by
  show (πh == c && πt.isPrefixOf x) = false
  have : (πh == c) = false := by
    simp only [beq_eq_false_iff_ne, ne_eq]
    exact fun hh => h hh.symm
  simp [this]

theorem isPrefixOf_nil_right {πh : Char} (πt : Text) :
    (πh :: πt).isPrefixOf ([] : Text) = false := rfl

theorem tokLen_none_of_head_ne {πh : Char} {πt : Text} (prev : Option Char)
    {c : Char} (x : Text) (h : c ≠ πh) :
    tokenMatchLen (πh :: πt) prev (c :: x) = none :=
  tokLen_none_of_not_isPrefixOf prev (isPrefixOf_cons_head x h)

theorem tokLen_none_nil {πh : Char} (πt : Text) (prev : Option Char) :
    tokenMatchLen (πh :: πt) prev [] = none :=
  tokLen_none_of_not_isPrefixOf prev (isPrefixOf_nil_right πt)

theorem bearerLen_none_of_head_ne {c : Char} (x : Text) (h : c ≠ 'B') :
    bearerMatchLen (c :: x) = none := by
  unfold bearerMatchLen
  rw [if_neg]
  simp only [show "Bearer".data = 'B' :: "earer".data from rfl]
  rw [isPrefixOf_cons_head x h]
  simp

theorem bearerLen_none_nil : bearerMatchLen [] = none := rfl

theorem hexLen_none_of_word_prev {p : Char} (s : Text)
    (h : isWordChar p = true) : hexMatchLen (some p) s = none := by
  unfold hexMatchLen
  rw [if_pos]
  exact h

theorem hexLen_none_of_head_not_hex (prev : Option Char) {c : Char} (x : Text)
    (h : isHexIChar c = false) : hexMatchLen prev (c :: x) = none := by
  unfold hexMatchLen
  split
  · rfl
  · have hrun : (c :: x).takeWhile isHexIChar = [] := takeWhile_eq_nil_of_head x h
    rw [hrun]
    simp

theorem hexLen_none_nil (prev : Option Char) : hexMatchLen prev [] = none := by
  unfold hexMatchLen
  split <;> simp [List.takeWhile]

theorem dropWhile_head_not {p : Char → Bool} {l : Text} {c : Char} {t : Text}
    (h : l.dropWhile p = c :: t) : p c = false := by
  induction l with
  | nil => simp at h
  | cons a l' ih =>
    rw [List.dropWhile_cons] at h
    split at h
    · exact ih h
    · next hp =>
      rcases List.cons.inj h with ⟨rfl, rfl⟩
      simpa using hp

theorem dropTrailingDashes_decomp (l : Text) :
    ∃ k, l = dropTrailingDashes l ++ List.replicate k '-' := by
  unfold dropTrailingDashes
  refine ⟨(l.reverse.takeWhile (fun c => c == '-')).length, ?_⟩
  have hsplit : l.reverse.takeWhile (fun c => c == '-') ++
      l.reverse.dropWhile (fun c => c == '-') = l.reverse :=
    List.takeWhile_append_dropWhile _ _
  have hrep : l.reverse.takeWhile (fun c => c == '-') =
      List.replicate (l.reverse.takeWhile (fun c => c == '-')).length '-' := by
    apply List.eq_replicate_of_mem
    intro b hb
    have := List.mem_takeWhile_imp hb
    simpa using this
  calc l = l.reverse.reverse := (List.reverse_reverse l).symm
    _ = (l.reverse.takeWhile (fun c => c == '-') ++
          l.reverse.dropWhile (fun c => c == '-')).reverse := by rw [hsplit]
    _ = (l.reverse.dropWhile (fun c => c == '-')).reverse ++
          (l.reverse.takeWhile (fun c => c == '-')).reverse := by rw [List.reverse_append]
    _ = (l.reverse.dropWhile (fun c => c == '-')).reverse ++
          List.replicate (l.reverse.takeWhile (fun c => c == '-')).length '-' := by
        conv_lhs => rw [hrep]
        rw [List.reverse_replicate]

theorem dropTrailingDashes_getLast {l : Text} {c : Char}
    (h : (dropTrailingDashes l).getLast? = some c) : c ≠ '-' := by
  unfold dropTrailingDashes at h
  rw [List.getLast?_reverse] at h
  cases hd : l.reverse.dropWhile (fun c => c == '-') with
  | nil => rw [hd] at h; simp at h
  | cons a t =>
    rw [hd] at h
    simp only [List.head?_cons, Option.some.injEq] at h
    subst h
    have := dropWhile_head_not hd
    simpa using this

theorem dropTrailingDashes_ne_nil_of_mem {l : Text} {c : Char}
    (hc : c ∈ l) (hne : c ≠ '-') : dropTrailingDashes l ≠ [] := by
  intro hnil
  rcases dropTrailingDashes_decomp l with ⟨k, hk⟩
  rw [hnil, List.nil_append] at hk
  rw [hk] at hc
  exact hne (List.eq_of_mem_replicate hc)

theorem drop_of_eq_append {α : Type} {l a b : List α} (h : l = a ++ b) :
    l.drop a.length = b := by
  subst h
  exact List.drop_left _ _

/-- After the class run of a token match: first the backtracked trailing
dashes, then the first non-class character of the remainder. -/
theorem drop_core_decomp (r : Text) :
    ∃ k, r.drop (dropTrailingDashes (r.takeWhile isTokenChar)).length =
      List.replicate k '-' ++ r.dropWhile isTokenChar := by
  obtain ⟨k, hk⟩ := dropTrailingDashes_decomp (r.takeWhile isTokenChar)
  refine ⟨k, ?_⟩
  apply drop_of_eq_append
  conv_lhs => rw [← List.takeWhile_append_dropWhile isTokenChar r]
  rw [← List.append_assoc, ← hk]

theorem tokenMatchLen_some_elim {π : Text} {prev : Option Char} {s : Text} {n : Nat}
    (h : tokenMatchLen π prev s = some n) :
    wordO prev = false ∧ π.isPrefixOf s = true ∧
    (∀ c, (s.drop n).head? = some c → (isTokenChar c = false ∨ c = '-')) := by
  unfold tokenMatchLen at h
  split at h
  · exact absurd h (by simp)
  · next hw =>
    split at h
    · next hpre =>
      simp only at h
      split at h
      · exact absurd h (by simp)
      · next hcore =>
        have hn : n = π.length +
            (dropTrailingDashes ((s.drop π.length).takeWhile isTokenChar)).length :=
          (Option.some.inj h).symm
        refine ⟨by simpa using hw, hpre, ?_⟩
        intro c hc
        obtain ⟨k, hk⟩ := drop_core_decomp (s.drop π.length)
        have hsdrop : s.drop n = (s.drop π.length).drop
            (dropTrailingDashes ((s.drop π.length).takeWhile isTokenChar)).length := by
          rw [List.drop_drop, hn]
          all_goals (first | rfl | (congr 1; omega))
        rw [hsdrop, hk] at hc
        cases k with
        | zero =>
          rw [List.replicate_zero, List.nil_append] at hc
          cases hdw : (s.drop π.length).dropWhile isTokenChar with
          | nil => rw [hdw] at hc; simp at hc
          | cons a t =>
            rw [hdw] at hc
            simp only [List.head?_cons, Option.some.injEq] at hc
            subst hc
            exact Or.inl (dropWhile_head_not hdw)
        | succ k' =>
          have hh : (List.replicate (k' + 1) '-' ++
              (s.drop π.length).dropWhile isTokenChar).head? = some '-' := by
            rw [List.replicate_succ, List.cons_append, List.head?_cons]
          rw [hh] at hc
          exact Or.inr (Option.some.inj hc).symm
    · exact absurd h (by simp)

theorem hexMatchLen_some_elim {prev : Option Char} {s : Text} {n : Nat}
    (h : hexMatchLen prev s = some n) :
    wordO prev = false ∧ n = (s.takeWhile isHexIChar).length ∧ 40 ≤ n ∧
    (∀ c, (s.drop n).head? = some c → isWordChar c = false) := by
  unfold hexMatchLen at h
  split at h
  · exact absurd h (by simp)
  · next hw =>
    simp only at h
    split at h
    · exact absurd h (by simp)
    · next hge =>
      split at h
      · next hdrop =>
        rcases Option.some.inj h with rfl
        refine ⟨by simpa using hw, rfl, by omega, ?_⟩
        intro c hc
        rw [hdrop] at hc
        simp at hc
      · next c' rest' hdrop =>
        split at h
        · exact absurd h (by simp)
        · next hcw =>
          rcases Option.some.inj h with rfl
          refine ⟨by simpa using hw, rfl, by omega, ?_⟩
          intro c hc
          rw [hdrop] at hc
          simp only [List.head?_cons, Option.some.injEq] at hc
          subst hc
          simpa using hcw

theorem bearerMatchLen_some_elim {s : Text} {n : Nat}
    (h : bearerMatchLen s = some n) :
    ("Bearer".data).isPrefixOf s = true ∧
    (∀ c, (s.drop n).head? = some c → isTokenChar c = false) := by
  unfold bearerMatchLen at h
  split at h
  · next hpre =>
    simp only at h
    split at h
    · exact absurd h (by simp)
    · next hsp =>
      split at h
      · exact absurd h (by simp)
      · next hrun =>
        have hn : n = 6 + ((s.drop 6).takeWhile isJsSpace).length +
            (((s.drop 6).drop ((s.drop 6).takeWhile isJsSpace).length).takeWhile
              isTokenChar).length := (Option.some.inj h).symm
        refine ⟨hpre, ?_⟩
        intro c hc
        have hsdrop : s.drop n =
            ((s.drop 6).drop ((s.drop 6).takeWhile isJsSpace).length).drop
              (((s.drop 6).drop ((s.drop 6).takeWhile isJsSpace).length).takeWhile
                isTokenChar).length := by
          rw [List.drop_drop, List.drop_drop, hn]
          all_goals (first | rfl | (congr 1; omega))
        have hdw : ((s.drop 6).drop ((s.drop 6).takeWhile isJsSpace).length).drop
            (((s.drop 6).drop ((s.drop 6).takeWhile isJsSpace).length).takeWhile
              isTokenChar).length =
            ((s.drop 6).drop ((s.drop 6).takeWhile isJsSpace).length).dropWhile
              isTokenChar := by
          apply drop_of_eq_append
          rw [List.takeWhile_append_dropWhile]
        rw [hsdrop, hdw] at hc
        cases hdd : ((s.drop 6).drop ((s.drop 6).takeWhile isJsSpace).length).dropWhile
            isTokenChar with
        | nil => rw [hdd] at hc; simp at hc
        | cons a t =>
          rw [hdd] at hc
          simp only [List.head?_cons, Option.some.injEq] at hc
          subst hc
          exact dropWhile_head_not hdd
  · exact absurd h (by simp)

/-- Every output of `replaceToken` is either the input unchanged, or an
unchanged prefix, the redaction text, and a remainder, with a token match
at the replaced position. -/
theorem replaceToken_shape (π : Text) :
    ∀ (N : Nat) (prev : Option Char) (s : Text), s.length ≤ N →
    (replaceToken π prev s = s ∨
      ∃ u v n w, s = u ++ v ∧ tokenMatchLen π (ctxAfter prev u) v = some n ∧
        replaceToken π prev s = u ++ redactedText ++ w) := by
  intro N
  induction N with
  | zero =>
    intro prev s hlen
    cases s with
    | nil => left; rw [replaceToken]
    | cons c rest => simp at hlen
  | succ N ih =>
    intro prev s hlen
    cases s with
    | nil => left; rw [replaceToken]
    | cons c rest =>
      rw [replaceToken]
      split
      · next n heq =>
        right
        exact ⟨[], c :: rest, n,
          replaceToken π ((c :: rest).take n).getLast? ((c :: rest).drop n),
          by simp, by rw [ctxAfter_nil]; exact heq, by simp⟩
      · next heq =>
        rcases ih (some c) rest (by simp at hlen; omega) with h' | ⟨u, v, n, w, hs, hm, ho⟩
        · left
          rw [h']
        · right
          refine ⟨c :: u, v, n, w, by rw [List.cons_append, ← hs], ?_, ?_⟩
          · rw [ctxAfter_cons]
            exact hm
          · rw [ho, List.cons_append, List.cons_append]

/-- Shape of `replaceHex` outputs, analogous to `replaceToken_shape`. -/
theorem replaceHex_shape :
    ∀ (N : Nat) (prev : Option Char) (s : Text), s.length ≤ N →
    (replaceHex prev s = s ∨
      ∃ u v n w, s = u ++ v ∧ hexMatchLen (ctxAfter prev u) v = some n ∧
        replaceHex prev s = u ++ redactedText ++ w) := by
  intro N
  induction N with
  | zero =>
    intro prev s hlen
    cases s with
    | nil => left; rw [replaceHex]
    | cons c rest => simp at hlen
  | succ N ih =>
    intro prev s hlen
    cases s with
    | nil => left; rw [replaceHex]
    | cons c rest =>
      rw [replaceHex]
      split
      · next n heq =>
        right
        exact ⟨[], c :: rest, n,
          replaceHex ((c :: rest).take n).getLast? ((c :: rest).drop n),
          by simp, by rw [ctxAfter_nil]; exact heq, by simp⟩
      · next heq =>
        rcases ih (some c) rest (by simp at hlen; omega) with h' | ⟨u, v, n, w, hs, hm, ho⟩
        · left
          rw [h']
        · right
          refine ⟨c :: u, v, n, w, by rw [List.cons_append, ← hs], ?_, ?_⟩
          · rw [ctxAfter_cons]
            exact hm
          · rw [ho, List.cons_append, List.cons_append]

/-- Shape of `replaceBearer` outputs (no boundary context needed). -/
theorem replaceBearer_shape :
    ∀ (N : Nat) (s : Text), s.length ≤ N →
    (replaceBearer s = s ∨
      ∃ u v n w, s = u ++ v ∧ bearerMatchLen v = some n ∧
        replaceBearer s = u ++ bearerRedactedText ++ w) := by
  intro N
  induction N with
  | zero =>
    intro s hlen
    cases s with
    | nil => left; rw [replaceBearer]
    | cons c rest => simp at hlen
  | succ N ih =>
    intro s hlen
    cases s with
    | nil => left; rw [replaceBearer]
    | cons c rest =>
      rw [replaceBearer]
      split
      · next n heq =>
        right
        exact ⟨[], c :: rest, n, replaceBearer ((c :: rest).drop n),
          by simp, heq, by simp⟩
      · next heq =>
        rcases ih rest (by simp at hlen; omega) with h' | ⟨u, v, n, w, hs, hm, ho⟩
        · left
          rw [h']
        · right
          exact ⟨c :: u, v, n, w, by rw [List.cons_append, ← hs], hm,
            by rw [ho, List.cons_append, List.cons_append]⟩

theorem prefix_head {y : Text} {c : Char} {w : Text} (h : y <+: c :: w)
    (hne : y ≠ []) : y.head? = some c := by
  rcases h with ⟨t, ht⟩
  cases y with
  | nil => exact absurd rfl hne
  | cons a y' =>
    rw [List.cons_append] at ht
    rcases List.cons.inj ht with ⟨rfl, _⟩
    rfl

/-- If `π` is a prefix of `u ++ c :: w` extending past `u`, then `c ∈ π`. -/
theorem mem_of_prefix_past {π u : Text} {c : Char} {w : Text}
    (h : π <+: u ++ c :: w) (hlen : u.length < π.length) : c ∈ π := by
  have hu : u <+: π :=
    List.prefix_of_prefix_length_le (List.prefix_append u (c :: w)) h (by omega)
  rcases hu with ⟨π', hπ'⟩
  rcases h with ⟨t, ht⟩
  rw [← hπ', List.append_assoc] at ht
  have h2 : π' ++ t = c :: w := List.append_cancel_left ht
  cases π' with
  | nil =>
    rw [← hπ'] at hlen
    simp at hlen
  | cons a π'' =>
    rw [List.cons_append] at h2
    rcases List.cons.inj h2 with ⟨rfl, _⟩
    rw [← hπ']
    exact List.mem_append.mpr (Or.inr (List.mem_cons_self _ _))

theorem takeWhile_append_stops {p : Char → Bool} {a : Text} (b : Text)
    {x : Char} (hx : x ∈ a) (hpx : p x = false) :
    (a ++ b).takeWhile p = a.takeWhile p := by
  induction a with
  | nil => simp at hx
  | cons c t ih =>
    rw [List.cons_append, List.takeWhile_cons, List.takeWhile_cons]
    cases hpc : p c with
    | false => simp
    | true =>
      simp only [if_pos rfl]
      rcases List.mem_cons.mp hx with rfl | hx'
      · rw [hpc] at hpx
        simp at hpx
      · rw [ih hx']

theorem word_ne_dash {c : Char} (h : isWordChar c = true) : c ≠ '-' := by
  intro hc
  subst hc
  simp [isWordChar, isDigitChar] at h

theorem word_not_bracket : isWordChar '[' = false := by decide

/-- `tokenMatchLen` only looks at the prefix test and the class run. -/
theorem tokenMatchLen_congr {π : Text} (prev : Option Char) {x y : Text}
    (hpre : π.isPrefixOf x = π.isPrefixOf y)
    (hrun : (x.drop π.length).takeWhile isTokenChar =
      (y.drop π.length).takeWhile isTokenChar) :
    tokenMatchLen π prev x = tokenMatchLen π prev y := by
  unfold tokenMatchLen
  split
  · rfl
  · rw [hpre, hrun]

/-- A token match succeeds exactly when the boundary holds, the pattern
text is present, and the backtracked class run is nonempty. -/
theorem tokenMatchLen_eq_some {π : Text} {prev : Option Char} {s : Text}
    (hw : wordO prev = false) (hpre : π <+: s)
    (hcore : dropTrailingDashes ((s.drop π.length).takeWhile isTokenChar) ≠ []) :
    tokenMatchLen π prev s =
      some (π.length + (dropTrailingDashes ((s.drop π.length).takeWhile isTokenChar)).length) := by
  unfold tokenMatchLen
  rw [if_neg (by simp [hw]), if_pos (List.isPrefixOf_iff_prefix.mpr hpre)]
  simp only [if_neg hcore]

/-- Stability of a failed token match under replacing a later match of a
pattern whose text starts with a word-class character, when the replacement
text starts with `[`. -/
theorem stabTok_bracket {π : Text} (hπw : ∀ c ∈ π, isWordChar c = true)
    {prev : Option Char} {u : Text} {vh : Char} (v' w : Text)
    (hu : u ≠ [])
    (hul : ∀ d, u.getLast? = some d → isWordChar d = false)
    (hvclass : isTokenChar vh = true) (hvword : isWordChar vh = true)
    (hnone : tokenMatchLen π prev (u ++ vh :: v') = none) :
    tokenMatchLen π prev (u ++ '[' :: w) = none := by
  by_cases hw : wordO prev = true
  · unfold tokenMatchLen
    rw [if_pos hw]
  · rw [Bool.not_eq_true] at hw
    by_cases hpre : π <+: u ++ vh :: v'
    · by_cases hlen : π.length ≤ u.length
      · -- π lies inside u
        have hπu : π <+: u :=
          List.prefix_of_prefix_length_le hpre (List.prefix_append u (vh :: v')) hlen
        obtain ⟨u', rfl⟩ := hπu
        have hdi : ((π ++ u') ++ vh :: v').drop π.length = u' ++ vh :: v' :=
          drop_of_eq_append (by rw [List.append_assoc])
        have hdo : ((π ++ u') ++ '[' :: w).drop π.length = u' ++ '[' :: w :=
          drop_of_eq_append (by rw [List.append_assoc])
        by_cases hall : ∀ x ∈ u', isTokenChar x = true
        · -- the class run would reach `vh`, so the input would have matched
          exfalso
          have hrun : (u' ++ vh :: v').takeWhile isTokenChar =
              u' ++ (vh :: v').takeWhile isTokenChar := takeWhile_append_all _ hall
          have hvh : (vh :: v').takeWhile isTokenChar = vh :: v'.takeWhile isTokenChar := by
            rw [List.takeWhile_cons, if_pos hvclass]
          have hmem : vh ∈ (u' ++ vh :: v').takeWhile isTokenChar := by
            rw [hrun, hvh]
            exact List.mem_append.mpr (Or.inr (List.mem_cons_self _ _))
          have hcore : dropTrailingDashes ((((π ++ u') ++ vh :: v').drop π.length).takeWhile
              isTokenChar) ≠ [] := by
            rw [hdi]
            exact dropTrailingDashes_ne_nil_of_mem hmem (word_ne_dash hvword)
          rw [tokenMatchLen_eq_some hw (by exact ⟨u' ++ vh :: v', by simp⟩) hcore] at hnone
          exact Option.noConfusion hnone
        · -- the class run stops inside u: both scans are identical
          push_neg at hall
          obtain ⟨x, hxmem, hxne⟩ := hall
          have hxf : isTokenChar x = false := by
            simpa using hxne
          have hstop1 : (u' ++ vh :: v').takeWhile isTokenChar = u'.takeWhile isTokenChar :=
            takeWhile_append_stops _ hxmem hxf
          have hstop2 : (u' ++ '[' :: w).takeWhile isTokenChar = u'.takeWhile isTokenChar :=
            takeWhile_append_stops _ hxmem hxf
          rw [tokenMatchLen_congr prev
            (x := (π ++ u') ++ '[' :: w) (y := (π ++ u') ++ vh :: v')
            (by rw [List.isPrefixOf_iff_prefix.mpr ⟨u' ++ '[' :: w, by simp⟩,
                List.isPrefixOf_iff_prefix.mpr ⟨u' ++ vh :: v', by simp⟩])
            (by rw [hdi, hdo, hstop1, hstop2])]
          exact hnone
      · -- π would extend past u, forcing a word character at u's end
        push_neg at hlen
        have hu' : u <+: π :=
          List.prefix_of_prefix_length_le (List.prefix_append u (vh :: v')) hpre (by omega)
        cases hul' : u.getLast? with
        | none =>
          cases u with
          | nil => exact absurd rfl hu
          | cons a t => simp at hul'
        | some d =>
          have hd : d ∈ u := List.mem_of_mem_getLast? hul'
          have hdπ : d ∈ π := hu'.subset hd
          have hword := hπw d hdπ
          have hnword := hul d hul'
          rw [hword] at hnword
          exact Bool.noConfusion hnword
    · -- no π at this position in the input, nor in the output
      have hpre2 : ¬(π <+: u ++ '[' :: w) := by
        intro hcon
        by_cases hlen : π.length ≤ u.length
        · exact hpre (List.IsPrefix.trans
            (List.prefix_of_prefix_length_le hcon (List.prefix_append u ('[' :: w)) hlen)
            (List.prefix_append u (vh :: v')))
        · push_neg at hlen
          have hmem : '[' ∈ π := mem_of_prefix_past hcon hlen
          have := hπw '[' hmem
          rw [word_not_bracket] at this
          exact Bool.noConfusion this
      apply tokLen_none_of_not_isPrefixOf
      rw [← Bool.not_eq_true]
      intro hcon
      exact hpre2 (List.isPrefixOf_iff_prefix.mp hcon)

theorem hex_word {c : Char} (h : isHexIChar c = true) : isWordChar c = true := by
  simp only [isHexIChar, isDigitChar, Bool.or_eq_true, decide_eq_true_eq] at h
  simp only [isWordChar, isDigitChar, Bool.or_eq_true, decide_eq_true_eq]
  omega

theorem tok_word_or_dash {c : Char} (h : isTokenChar c = true) :
    isWordChar c = true ∨ c.toNat = 45 := by
  simp only [isTokenChar, Bool.or_eq_true, decide_eq_true_eq] at h
  exact h

/-- `hexMatchLen` only looks at the boundary, the hex run, and the first
character after the run. -/
theorem hexMatchLen_congr (prev : Option Char) {x y : Text}
    (hrun : x.takeWhile isHexIChar = y.takeWhile isHexIChar)
    (hafter : (x.drop (x.takeWhile isHexIChar).length).head? =
      (y.drop (y.takeWhile isHexIChar).length).head?) :
    hexMatchLen prev x = hexMatchLen prev y := by
  unfold hexMatchLen
  split
  · rfl
  · simp only
    rw [hrun]
    cases hx : x.drop ((y.takeWhile isHexIChar).length) with
    | nil =>
      cases hy : y.drop ((y.takeWhile isHexIChar).length) with
      | nil => rfl
      | cons b t =>
        rw [hrun, hx, hy] at hafter
        simp at hafter
    | cons a s =>
      cases hy : y.drop ((y.takeWhile isHexIChar).length) with
      | nil =>
        rw [hrun, hx, hy] at hafter
        simp at hafter
      | cons b t =>
        rw [hrun, hx, hy] at hafter
        simp only [List.head?_cons, Option.some.injEq] at hafter
        rw [hafter]

/-- Stability of a failed hex match under a later replacement that begins
with a hex character, when the replacement text starts with `[`. -/
theorem stabHex_bracket {prev : Option Char} {u : Text} {vh : Char} (v' w : Text)
    (hu : u ≠ [])
    (hul : ∀ d, u.getLast? = some d → isWordChar d = false)
    (hvhex : isHexIChar vh = true)
    (hnone : hexMatchLen prev (u ++ vh :: v') = none) :
    hexMatchLen prev (u ++ '[' :: w) = none := by
  by_cases hall : ∀ x ∈ u, isHexIChar x = true
  · -- impossible: u would end in a hex (hence word) character
    exfalso
    cases hul' : u.getLast? with
    | none =>
      cases u with
      | nil => exact absurd rfl hu
      | cons a t => simp at hul'
    | some d =>
      have hd : d ∈ u := List.mem_of_mem_getLast? hul'
      have := hex_word (hall d hd)
      have h2 := hul d hul'
      rw [this] at h2
      exact Bool.noConfusion h2
  · push_neg at hall
    obtain ⟨x, hxmem, hxne⟩ := hall
    have hxf : isHexIChar x = false := by simpa using hxne
    have hstop1 : (u ++ vh :: v').takeWhile isHexIChar = u.takeWhile isHexIChar :=
      takeWhile_append_stops _ hxmem hxf
    have hstop2 : (u ++ '[' :: w).takeWhile isHexIChar = u.takeWhile isHexIChar :=
      takeWhile_append_stops _ hxmem hxf
    have hle : (u.takeWhile isHexIChar).length ≤ u.length :=
      (List.takeWhile_prefix _).length_le
    have hlt : (u.takeWhile isHexIChar).length < u.length := by
      rcases Nat.lt_or_ge (u.takeWhile isHexIChar).length u.length with h | h
      · exact h
      · exfalso
        have heq : u.takeWhile isHexIChar = u :=
          List.IsPrefix.eq_of_length (List.takeWhile_prefix _) (by omega)
        have hbad := List.mem_takeWhile_imp (heq ▸ hxmem)
        rw [hxf] at hbad
        exact Bool.noConfusion hbad
    have hd1 : (u ++ vh :: v').drop (u.takeWhile isHexIChar).length =
        u.drop (u.takeWhile isHexIChar).length ++ vh :: v' :=
      List.drop_append_of_le_length (by omega)
    have hd2 : (u ++ '[' :: w).drop (u.takeWhile isHexIChar).length =
        u.drop (u.takeWhile isHexIChar).length ++ '[' :: w :=
      List.drop_append_of_le_length (by omega)
    have hne : u.drop (u.takeWhile isHexIChar).length ≠ [] := by
      intro h0
      have := congrArg List.length h0
      simp only [List.length_drop, List.length_nil] at this
      omega
    have hcongr : hexMatchLen prev (u ++ '[' :: w) = hexMatchLen prev (u ++ vh :: v') := by
      apply hexMatchLen_congr
      · rw [hstop1, hstop2]
      · rw [hstop1, hstop2, hd1, hd2]
        cases hdu : u.drop (u.takeWhile isHexIChar).length with
        | nil => exact absurd hdu hne
        | cons a t => simp
    rw [hcongr]
    exact hnone

theorem bearerLen_none_of_not_isPrefixOf {x : Text}
    (h : ("Bearer".data).isPrefixOf x = false) : bearerMatchLen x = none := by
  unfold bearerMatchLen
  rw [if_neg]
  simp [h]

theorem bearerMatchLen_eq (x : Text) :
    bearerMatchLen x =
      if ("Bearer".data).isPrefixOf x then
        if (x.drop 6).takeWhile isJsSpace = [] then none
        else if ((x.drop 6).drop ((x.drop 6).takeWhile isJsSpace).length).takeWhile
            isTokenChar = [] then none
        else some (6 + ((x.drop 6).takeWhile isJsSpace).length +
          (((x.drop 6).drop ((x.drop 6).takeWhile isJsSpace).length).takeWhile
            isTokenChar).length)
      else none := rfl

theorem bearerMatchLen_none_of_sp {x : Text}
    (hsp : (x.drop 6).takeWhile isJsSpace = []) : bearerMatchLen x = none := by
  rw [bearerMatchLen_eq, hsp]
  split <;> simp

theorem bearerMatchLen_none_of_run {x : Text}
    (hrun : ((x.drop 6).drop ((x.drop 6).takeWhile isJsSpace).length).takeWhile
      isTokenChar = []) : bearerMatchLen x = none := by
  rw [bearerMatchLen_eq, hrun]
  split <;> simp

theorem bearerMatchLen_ne_none {x : Text}
    (hpre : ("Bearer".data).isPrefixOf x = true)
    (hsp : (x.drop 6).takeWhile isJsSpace ≠ [])
    (hrun : ((x.drop 6).drop ((x.drop 6).takeWhile isJsSpace).length).takeWhile
      isTokenChar ≠ []) : bearerMatchLen x ≠ none := by
  rw [bearerMatchLen_eq, if_pos hpre, if_neg hsp, if_neg hrun]
  simp

theorem bearer_chars_word : ∀ c ∈ ("Bearer".data), isWordChar c = true := by decide

theorem hex_not_space {c : Char} (h : isHexIChar c = true) : isJsSpace c = false := by
  simp only [isHexIChar, isDigitChar, Bool.or_eq_true, decide_eq_true_eq] at h
  simp only [isJsSpace, Bool.or_eq_false_iff, decide_eq_false_iff_not, not_and, not_le]
  omega

theorem word_not_space {c : Char} (h : isWordChar c = true) : isJsSpace c = false := by
  simp only [isWordChar, isDigitChar, Bool.or_eq_true, decide_eq_true_eq] at h
  simp only [isJsSpace, Bool.or_eq_false_iff, decide_eq_false_iff_not, not_and, not_le]
  omega

theorem hex_tok {c : Char} (h : isHexIChar c = true) : isTokenChar c = true := by
  simp only [isTokenChar, Bool.or_eq_true]
  exact Or.inl (hex_word h)

/-- The common `Bearer`-inside-`u` case: once the literal `Bearer` sits at
the scan position inside the unchanged prefix, a failed match stays failed
when the text after `u` is replaced, provided both the old and the new
continuation start with a non-space character and the old one is a class
character. -/
theorem stabBearer_after6 (u1 : Text) {vh : Char} (v1 : Text) {oh : Char} (o1 : Text)
    (hvws : isJsSpace vh = false) (hvcl : isTokenChar vh = true)
    (hows : isJsSpace oh = false)
    (hnone : bearerMatchLen (("Bearer".data ++ u1) ++ vh :: v1) = none) :
    bearerMatchLen (("Bearer".data ++ u1) ++ oh :: o1) = none := by
  have hd1 : ((("Bearer".data ++ u1) ++ vh :: v1)).drop 6 = u1 ++ vh :: v1 :=
    drop_of_eq_append (l := ("Bearer".data ++ u1) ++ vh :: v1)
      (a := "Bearer".data) (by rw [List.append_assoc])
  have hd2 : ((("Bearer".data ++ u1) ++ oh :: o1)).drop 6 = u1 ++ oh :: o1 :=
    drop_of_eq_append (l := ("Bearer".data ++ u1) ++ oh :: o1)
      (a := "Bearer".data) (by rw [List.append_assoc])
  by_cases hall : ∀ x ∈ u1, isJsSpace x = true
  · by_cases hu1 : u1 = []
    · subst hu1
      apply bearerMatchLen_none_of_sp
      have hd : ((("Bearer".data ++ ([] : Text)) ++ oh :: o1)).drop 6 = oh :: o1 :=
        drop_of_eq_append (a := "Bearer".data) (b := oh :: o1) (by simp)
      rw [hd]
      exact takeWhile_eq_nil_of_head _ hows
    · exfalso
      apply bearerMatchLen_ne_none _ _ _ hnone
      · exact List.isPrefixOf_iff_prefix.mpr ⟨u1 ++ vh :: v1, by rw [List.append_assoc]⟩
      · rw [hd1, takeWhile_append_all _ hall, takeWhile_eq_nil_of_head _ hvws,
          List.append_nil]
        exact hu1
      · rw [hd1, takeWhile_append_all _ hall, takeWhile_eq_nil_of_head _ hvws,
          List.append_nil]
        have hdl : (u1 ++ vh :: v1).drop u1.length = vh :: v1 := List.drop_left u1 _
        rw [hdl, List.takeWhile_cons, if_pos hvcl]
        simp
  · push_neg at hall
    obtain ⟨x, hxmem, hxne⟩ := hall
    have hxf : isJsSpace x = false := by simpa using hxne
    have hstop1 : (u1 ++ vh :: v1).takeWhile isJsSpace = u1.takeWhile isJsSpace :=
      takeWhile_append_stops _ hxmem hxf
    have hstop2 : (u1 ++ oh :: o1).takeWhile isJsSpace = u1.takeWhile isJsSpace :=
      takeWhile_append_stops _ hxmem hxf
    by_cases hsp : u1.takeWhile isJsSpace = []
    · apply bearerMatchLen_none_of_sp
      rw [hd2, hstop2, hsp]
    · have hle : (u1.takeWhile isJsSpace).length ≤ u1.length :=
        (List.takeWhile_prefix _).length_le
      have hlt : (u1.takeWhile isJsSpace).length < u1.length := by
        rcases Nat.lt_or_ge (u1.takeWhile isJsSpace).length u1.length with h | h
        · exact h
        · exfalso
          have heq : u1.takeWhile isJsSpace = u1 :=
            List.IsPrefix.eq_of_length (List.takeWhile_prefix _) (by omega)
          have hbad := List.mem_takeWhile_imp (heq ▸ hxmem)
          rw [hxf] at hbad
          exact Bool.noConfusion hbad
      have hta1 : (u1 ++ vh :: v1).drop (u1.takeWhile isJsSpace).length =
          u1.drop (u1.takeWhile isJsSpace).length ++ vh :: v1 :=
        List.drop_append_of_le_length (by omega)
      have hta2 : (u1 ++ oh :: o1).drop (u1.takeWhile isJsSpace).length =
          u1.drop (u1.takeWhile isJsSpace).length ++ oh :: o1 :=
        List.drop_append_of_le_length (by omega)
      cases hdu : u1.drop (u1.takeWhile isJsSpace).length with
      | nil =>
        exfalso
        have := congrArg List.length hdu
        simp only [List.length_drop, List.length_nil] at this
        omega
      | cons d t =>
        by_cases hdcl : isTokenChar d = true
        · exfalso
          apply bearerMatchLen_ne_none _ _ _ hnone
          · exact List.isPrefixOf_iff_prefix.mpr ⟨u1 ++ vh :: v1, by rw [List.append_assoc]⟩
          · rw [hd1, hstop1]
            exact hsp
          · rw [hd1, hstop1, hta1, hdu, List.cons_append, List.takeWhile_cons,
              if_pos hdcl]
            simp
        · apply bearerMatchLen_none_of_run
          rw [hd2, hstop2, hta2, hdu, List.cons_append]
          exact takeWhile_eq_nil_of_head _ (by simpa using hdcl)

theorem takeWhile_nil_of_head {p : Char → Bool} {x : Text} {c : Char} {r : Text}
    (hx : x = c :: r) (hc : p c = false) (w : Text) : (x ++ w).takeWhile p = [] := by
  subst hx
  rw [List.cons_append]
  exact takeWhile_eq_nil_of_head _ hc

theorem bearerRedactedText_drop_head (k : Nat) (h1 : 1 ≤ k) (h5 : k ≤ 5) :
    ∃ c r, bearerRedactedText.drop k = c :: r ∧ isJsSpace c = false := by
  interval_cases k <;> exact ⟨_, _, rfl, by decide⟩

/-- Stability of a failed Bearer match when a later Bearer match is
replaced by `Bearer [REDACTED]`. -/
theorem stabBearer_self {u : Text} (hu : u ≠ []) {v : Text}
    (hv : ("Bearer".data) <+: v) (w : Text)
    (hnone : bearerMatchLen (u ++ v) = none) :
    bearerMatchLen ((u ++ bearerRedactedText) ++ w) = none := by
  by_cases hlen : 6 ≤ u.length
  · by_cases hBu : ("Bearer".data) <+: u
    · obtain ⟨u1, rfl⟩ := hBu
      obtain ⟨t, rfl⟩ := hv
      have hin : ("Bearer".data ++ u1) ++ ("Bearer".data ++ t) =
          ("Bearer".data ++ u1) ++ 'B' :: ("earer".data ++ t) := rfl
      have hout : (("Bearer".data ++ u1) ++ bearerRedactedText) ++ w =
          ("Bearer".data ++ u1) ++ 'B' :: ("earer [REDACTED]".data ++ w) := by
        rw [List.append_assoc]
        rfl
      rw [hout]
      rw [hin] at hnone
      exact stabBearer_after6 u1 _ _ (by decide) (by decide) (by decide) hnone
    · apply bearerLen_none_of_not_isPrefixOf
      rw [← Bool.not_eq_true]
      intro hcon
      apply hBu
      exact List.prefix_of_prefix_length_le (List.isPrefixOf_iff_prefix.mp hcon)
        (List.prefix_append u (bearerRedactedText ++ w) |>.trans
          (by rw [List.append_assoc])) (by simp; omega)
  · -- u shorter than `Bearer`: the scan lands inside the reinserted Bearer text
    push_neg at hlen
    have hu1 : 1 ≤ u.length := by
      cases u with
      | nil => exact absurd rfl hu
      | cons a t => simp
    apply bearerMatchLen_none_of_sp
    obtain ⟨c, r, hcr, hcws⟩ := bearerRedactedText_drop_head (6 - u.length)
      (by omega) (by omega)
    have hdrop : ((u ++ bearerRedactedText) ++ w).drop 6 =
        bearerRedactedText.drop (6 - u.length) ++ w := by
      rw [List.drop_append_eq_append_drop, List.drop_append_eq_append_drop]
      have h1 : u.drop 6 = [] := List.drop_of_length_le (by omega)
      have h2 : w.drop (6 - (u ++ bearerRedactedText).length) = w := by
        have : 6 - (u ++ bearerRedactedText).length = 0 := by
          simp only [List.length_append]
          have : bearerRedactedText.length = 17 := rfl
          omega
        rw [this, List.drop_zero]
      rw [h1, h2, List.nil_append]
    rw [hdrop]
    exact takeWhile_nil_of_head hcr hcws w

theorem word_tok {c : Char} (h : isWordChar c = true) : isTokenChar c = true := by
  simp only [isTokenChar, Bool.or_eq_true]
  exact Or.inl h

/-- Stability of a failed token match when later text is replaced but both
the old and the new continuation after the unchanged prefix start with `B`
(`B` is outside every token-pattern prefix used by `sanitizeMessage`). -/
theorem stabTok_headB {π : Text} (hπw : ∀ c ∈ π, isWordChar c = true)
    (hπB : 'B' ∉ π) {prev : Option Char} {u : Text} (v' w : Text)
    (hnone : tokenMatchLen π prev (u ++ 'B' :: v') = none) :
    tokenMatchLen π prev (u ++ 'B' :: w) = none := by
  by_cases hw : wordO prev = true
  · unfold tokenMatchLen
    rw [if_pos hw]
  · rw [Bool.not_eq_true] at hw
    by_cases hpre : π <+: u ++ 'B' :: v'
    · by_cases hlen : π.length ≤ u.length
      · -- π lies inside u
        have hπu : π <+: u :=
          List.prefix_of_prefix_length_le hpre (List.prefix_append u ('B' :: v')) hlen
        obtain ⟨u', rfl⟩ := hπu
        have hdi : ((π ++ u') ++ 'B' :: v').drop π.length = u' ++ 'B' :: v' :=
          drop_of_eq_append (by rw [List.append_assoc])
        have hdo : ((π ++ u') ++ 'B' :: w).drop π.length = u' ++ 'B' :: w :=
          drop_of_eq_append (by rw [List.append_assoc])
        by_cases hall : ∀ x ∈ u', isTokenChar x = true
        · -- the class run would reach the `B`, so the input would have matched
          exfalso
          have hrun : (u' ++ 'B' :: v').takeWhile isTokenChar =
              u' ++ ('B' :: v').takeWhile isTokenChar := takeWhile_append_all _ hall
          have hvh : ('B' :: v').takeWhile isTokenChar = 'B' :: v'.takeWhile isTokenChar := by
            rw [List.takeWhile_cons, if_pos (by decide)]
          have hmem : 'B' ∈ (u' ++ 'B' :: v').takeWhile isTokenChar := by
            rw [hrun, hvh]
            exact List.mem_append.mpr (Or.inr (List.mem_cons_self _ _))
          have hcore : dropTrailingDashes ((((π ++ u') ++ 'B' :: v').drop π.length).takeWhile
              isTokenChar) ≠ [] := by
            rw [hdi]
            exact dropTrailingDashes_ne_nil_of_mem hmem (by decide)
          rw [tokenMatchLen_eq_some hw (by exact ⟨u' ++ 'B' :: v', by simp⟩) hcore] at hnone
          exact Option.noConfusion hnone
        · -- the class run stops inside u: both scans are identical
          push_neg at hall
          obtain ⟨x, hxmem, hxne⟩ := hall
          have hxf : isTokenChar x = false := by
            simpa using hxne
          have hstop1 : (u' ++ 'B' :: v').takeWhile isTokenChar = u'.takeWhile isTokenChar :=
            takeWhile_append_stops _ hxmem hxf
          have hstop2 : (u' ++ 'B' :: w).takeWhile isTokenChar = u'.takeWhile isTokenChar :=
            takeWhile_append_stops _ hxmem hxf
          rw [tokenMatchLen_congr prev
            (x := (π ++ u') ++ 'B' :: w) (y := (π ++ u') ++ 'B' :: v')
            (by rw [List.isPrefixOf_iff_prefix.mpr ⟨u' ++ 'B' :: w, by simp⟩,
                List.isPrefixOf_iff_prefix.mpr ⟨u' ++ 'B' :: v', by simp⟩])
            (by rw [hdi, hdo, hstop1, hstop2])]
          exact hnone
      · -- π would extend past u onto the `B`, which is outside π
        push_neg at hlen
        exact absurd (mem_of_prefix_past hpre hlen) hπB
    · -- no π at this position in the input, nor in the output
      have hpre2 : ¬(π <+: u ++ 'B' :: w) := by
        intro hcon
        by_cases hlen : π.length ≤ u.length
        · exact hpre (List.IsPrefix.trans
            (List.prefix_of_prefix_length_le hcon (List.prefix_append u ('B' :: w)) hlen)
            (List.prefix_append u ('B' :: v')))
        · push_neg at hlen
          exact absurd (mem_of_prefix_past hcon hlen) hπB
      apply tokLen_none_of_not_isPrefixOf
      rw [← Bool.not_eq_true]
      intro hcon
      exact hpre2 (List.isPrefixOf_iff_prefix.mp hcon)

/-- Stability of a failed Bearer match when a later hex match is replaced
by `[REDACTED]`. -/
theorem stabBearer_bracket {u : Text} (hu : u ≠ []) {vh : Char} (v' w : Text)
    (hvcl : isTokenChar vh = true) (hvws : isJsSpace vh = false)
    (hnone : bearerMatchLen (u ++ vh :: v') = none) :
    bearerMatchLen ((u ++ redactedText) ++ w) = none := by
  have hout : (u ++ redactedText) ++ w = u ++ '[' :: ("REDACTED]".data ++ w) := by
    rw [List.append_assoc]
    rfl
  rw [hout]
  by_cases hlen : 6 ≤ u.length
  · by_cases hBu : ("Bearer".data) <+: u
    · obtain ⟨u1, rfl⟩ := hBu
      exact stabBearer_after6 u1 v' _ hvws hvcl (by decide) hnone
    · apply bearerLen_none_of_not_isPrefixOf
      rw [← Bool.not_eq_true]
      intro hcon
      apply hBu
      exact List.prefix_of_prefix_length_le (List.isPrefixOf_iff_prefix.mp hcon)
        (List.prefix_append u _) (by simp; omega)
  · push_neg at hlen
    apply bearerLen_none_of_not_isPrefixOf
    rw [← Bool.not_eq_true]
    intro hcon
    have hmem : '[' ∈ "Bearer".data :=
      mem_of_prefix_past (List.isPrefixOf_iff_prefix.mp hcon) (by simp; omega)
    exact absurd hmem (by decide)

theorem replaceToken_cons_none {π : Text} {prev : Option Char} {c : Char} {t : Text}
    (h : tokenMatchLen π prev (c :: t) = none) :
    replaceToken π prev (c :: t) = c :: replaceToken π (some c) t := by
  rw [replaceToken]
  split
  · next n heq => rw [heq] at h; exact Option.noConfusion h
  · rfl

theorem replaceBearer_cons_none {c : Char} {t : Text}
    (h : bearerMatchLen (c :: t) = none) :
    replaceBearer (c :: t) = c :: replaceBearer t := by
  rw [replaceBearer]
  split
  · next n heq => rw [heq] at h; exact Option.noConfusion h
  · rfl

theorem replaceHex_cons_none {prev : Option Char} {c : Char} {t : Text}
    (h : hexMatchLen prev (c :: t) = none) :
    replaceHex prev (c :: t) = c :: replaceHex (some c) t := by
  rw [replaceHex]
  split
  · next n heq => rw [heq] at h; exact Option.noConfusion h
  · rfl

/-- A match test for `\b PFX …` only depends on the scanning context when the
head character can start the pattern at all. -/
theorem existsMatch_tok_irrel {πh : Char} {πt : Text} (c1 c2 : Option Char) (s : Text)
    (h : ∀ d t, s = d :: t → d ≠ πh) :
    existsMatch (tokenMatchLen (πh :: πt)) c1 s =
      existsMatch (tokenMatchLen (πh :: πt)) c2 s := by
  cases s with
  | nil =>
    rw [existsMatch_nil, existsMatch_nil, tokLen_none_nil, tokLen_none_nil]
  | cons d t =>
    rw [existsMatch_cons, existsMatch_cons,
      tokLen_none_of_head_ne c1 t (h d t rfl), tokLen_none_of_head_ne c2 t (h d t rfl)]

theorem existsMatch_hex_irrel (c1 c2 : Option Char) (s : Text)
    (h : ∀ d t, s = d :: t → isHexIChar d = false) :
    existsMatch hexMatchLen c1 s = existsMatch hexMatchLen c2 s := by
  cases s with
  | nil =>
    rw [existsMatch_nil, existsMatch_nil, hexLen_none_nil, hexLen_none_nil]
  | cons d t =>
    rw [existsMatch_cons, existsMatch_cons,
      hexLen_none_of_head_not_hex c1 t (h d t rfl),
      hexLen_none_of_head_not_hex c2 t (h d t rfl)]

theorem existsMatch_bearer_irrel (c1 c2 : Option Char) (s : Text) :
    existsMatch (fun _ t => bearerMatchLen t) c1 s =
      existsMatch (fun _ t => bearerMatchLen t) c2 s := by
  cases s <;> rfl

theorem ctxAfter_eq_getLast? {x : Text} (hx : x ≠ []) (prev : Option Char) :
    ctxAfter prev x = x.getLast? := by
  unfold ctxAfter
  cases h : x.getLast? with
  | none =>
    exfalso
    cases x with
    | nil => exact hx rfl
    | cons a t =>
      rw [getLast?_cons_eq_ctxAfter] at h
      unfold ctxAfter at h
      cases ht : t.getLast? with
      | none => rw [ht] at h; exact Option.noConfusion h
      | some d => rw [ht] at h; exact Option.noConfusion h
  | some d => rfl

theorem takeWhile_ne_nil_head {p : Char → Bool} {v : Text}
    (h : v.takeWhile p ≠ []) : ∃ vh v2, v = vh :: v2 ∧ p vh = true := by
  cases v with
  | nil => simp [List.takeWhile] at h
  | cons a t =>
    rw [List.takeWhile_cons] at h
    by_cases hp : p a = true
    · exact ⟨a, t, rfl, hp⟩
    · rw [if_neg hp] at h
      exact absurd rfl h

/-- No Bearer match can start at the reinserted `Bearer [REDACTED]` text:
the whitespace run is the single space, and the class run after it is empty
because of `[`. -/
theorem bearerMatchLen_selfRedacted (X : Text) :
    bearerMatchLen ('B':: 'e':: 'a':: 'r':: 'e':: 'r':: ' ':: '['::X) = none := by
  apply bearerMatchLen_none_of_run
  have h6 : (('B':: 'e':: 'a':: 'r':: 'e':: 'r':: ' ':: '['::X : Text)).drop 6 = ' ':: '['::X := rfl
  rw [h6]
  have hsp : ((' ':: '['::X : Text)).takeWhile isJsSpace = [' '] := by
    rw [List.takeWhile_cons, if_pos (by decide), List.takeWhile_cons, if_neg (by decide)]
  rw [hsp]
  show (('['::X : Text)).takeWhile isTokenChar = []
  rw [List.takeWhile_cons, if_neg (by decide)]

theorem existsMatch_bearer_cons_false {prev : Option Char} {c : Char} {t : Text}
    (h1 : bearerMatchLen (c :: t) = none)
    (h2 : existsMatch (fun _ x => bearerMatchLen x) (some c) t = false) :
    existsMatch (fun _ x => bearerMatchLen x) prev (c :: t) = false :=
  existsMatch_cons_false (fun _ x => bearerMatchLen x) h1 h2

/-- The Bearer pass kills every Bearer match: its output contains none. -/
theorem replaceBearer_killed :
    ∀ (N : Nat) (s : Text) (prev : Option Char), s.length ≤ N →
      existsMatch (fun _ t => bearerMatchLen t) prev (replaceBearer s) = false := by
  intro N
  induction N with
  | zero =>
    intro s prev hlen
    cases s with
    | nil => rw [replaceBearer, existsMatch_nil]; rfl
    | cons c rest => simp at hlen
  | succ N ih =>
    intro s prev hlen
    cases s with
    | nil => rw [replaceBearer, existsMatch_nil]; rfl
    | cons c rest =>
      rw [replaceBearer]
      split
      · next n heq =>
        have hb := bearerMatchLen_bounds heq
        show existsMatch (fun _ t => bearerMatchLen t) prev
          ('B':: 'e':: 'a':: 'r':: 'e':: 'r':: ' ':: '[':: 'R':: 'E':: 'D':: 'A':: 'C':: 'T':: 'E':: 'D':: ']'::
            replaceBearer ((c :: rest).drop n)) = false
        apply existsMatch_bearer_cons_false (bearerMatchLen_selfRedacted _)
        apply existsMatch_bearer_cons_false (bearerLen_none_of_head_ne _ (by decide))
        apply existsMatch_bearer_cons_false (bearerLen_none_of_head_ne _ (by decide))
        apply existsMatch_bearer_cons_false (bearerLen_none_of_head_ne _ (by decide))
        apply existsMatch_bearer_cons_false (bearerLen_none_of_head_ne _ (by decide))
        apply existsMatch_bearer_cons_false (bearerLen_none_of_head_ne _ (by decide))
        apply existsMatch_bearer_cons_false (bearerLen_none_of_head_ne _ (by decide))
        apply existsMatch_bearer_cons_false (bearerLen_none_of_head_ne _ (by decide))
        apply existsMatch_bearer_cons_false (bearerLen_none_of_head_ne _ (by decide))
        apply existsMatch_bearer_cons_false (bearerLen_none_of_head_ne _ (by decide))
        apply existsMatch_bearer_cons_false (bearerLen_none_of_head_ne _ (by decide))
        apply existsMatch_bearer_cons_false (bearerLen_none_of_head_ne _ (by decide))
        apply existsMatch_bearer_cons_false (bearerLen_none_of_head_ne _ (by decide))
        apply existsMatch_bearer_cons_false (bearerLen_none_of_head_ne _ (by decide))
        apply existsMatch_bearer_cons_false (bearerLen_none_of_head_ne _ (by decide))
        apply existsMatch_bearer_cons_false (bearerLen_none_of_head_ne _ (by decide))
        apply existsMatch_bearer_cons_false (bearerLen_none_of_head_ne _ (by decide))
        refine ih ((c :: rest).drop n) (some ']') ?_
        have h1 : ((c :: rest).drop n).length = (c :: rest).length - n := List.length_drop n _
        have h2 : (c :: rest).length ≤ N + 1 := hlen
        have h3 : 0 < n := hb.1
        omega
      · next heq =>
        refine existsMatch_bearer_cons_false ?_ (ih rest (some c) (by simp at hlen; omega))
        show bearerMatchLen (c :: replaceBearer rest) = none
        rcases replaceBearer_shape rest.length rest (le_refl _) with
          hsame | ⟨u, v, n', w, hsv, hm, ho⟩
        · rw [hsame]; exact heq
        · rw [ho]
          obtain ⟨hpre2, _⟩ := bearerMatchLen_some_elim hm
          have hshape : c :: rest = (c :: u) ++ v := by
            rw [hsv]
            rfl
          have hnone2 : bearerMatchLen ((c :: u) ++ v) = none := by
            rw [← hshape]
            exact heq
          have hfin := stabBearer_self (u := c :: u) (by simp)
            (List.isPrefixOf_iff_prefix.mp hpre2) w hnone2
          have hcv : c :: ((u ++ bearerRedactedText) ++ w) =
              ((c :: u) ++ bearerRedactedText) ++ w := by
            rw [List.append_assoc, List.append_assoc]
            rfl
          rw [hcv]
          exact hfin

/-- A token pass kills every match of its own pattern: the output of
`replaceToken` contains no match of the same pattern. -/
theorem replaceToken_killed {πh : Char} {πt : Text}
    (hπw : ∀ c ∈ πh :: πt, isWordChar c = true) (hπR : πh ≠ 'R') :
    ∀ (N : Nat) (prev : Option Char) (s : Text), s.length ≤ N →
      existsMatch (tokenMatchLen (πh :: πt)) prev (replaceToken (πh :: πt) prev s) = false := by
  have hπhw : isWordChar πh = true := hπw πh (List.mem_cons_self _ _)
  have hbr : '[' ≠ πh := by
    intro hc
    rw [← hc] at hπhw
    exact absurd hπhw (by decide)
  intro N
  induction N with
  | zero =>
    intro prev s hlen
    cases s with
    | nil => rw [replaceToken, existsMatch_nil, tokLen_none_nil]; rfl
    | cons c rest => simp at hlen
  | succ N ih =>
    intro prev s hlen
    cases s with
    | nil => rw [replaceToken, existsMatch_nil, tokLen_none_nil]; rfl
    | cons c rest =>
      rw [replaceToken]
      split
      · next n heq =>
        obtain ⟨hw, hpre, hfol⟩ := tokenMatchLen_some_elim heq
        have hb := tokenMatchLen_bounds heq
        show existsMatch (tokenMatchLen (πh :: πt)) prev
          ('[':: 'R':: 'E':: 'D':: 'A':: 'C':: 'T':: 'E':: 'D':: ']'::
            replaceToken (πh :: πt) ((c :: rest).take n).getLast? ((c :: rest).drop n)) = false
        apply existsMatch_cons_false _ (tokLen_none_of_head_ne _ _ hbr)
        apply existsMatch_cons_false _ (tokLen_none_of_head_ne _ _ (Ne.symm hπR))
        apply existsMatch_cons_false _ (tokLen_none_of_word_prev _ (by decide))
        apply existsMatch_cons_false _ (tokLen_none_of_word_prev _ (by decide))
        apply existsMatch_cons_false _ (tokLen_none_of_word_prev _ (by decide))
        apply existsMatch_cons_false _ (tokLen_none_of_word_prev _ (by decide))
        apply existsMatch_cons_false _ (tokLen_none_of_word_prev _ (by decide))
        apply existsMatch_cons_false _ (tokLen_none_of_word_prev _ (by decide))
        apply existsMatch_cons_false _ (tokLen_none_of_word_prev _ (by decide))
        apply existsMatch_cons_false _ (tokLen_none_of_word_prev _ (by decide))
        cases hd : (c :: rest).drop n with
        | nil =>
          rw [replaceToken, existsMatch_nil, tokLen_none_nil]
          rfl
        | cons e t =>
          have he : isTokenChar e = false ∨ e = '-' := hfol e (by rw [hd]; rfl)
          have hene : e ≠ πh := by
            rcases he with he | he
            · intro hc
              rw [hc, word_tok hπhw] at he
              exact Bool.noConfusion he
            · intro hc
              rw [hc] at he
              exact absurd he (word_ne_dash hπhw)
          have hscan : tokenMatchLen (πh :: πt) ((c :: rest).take n).getLast? (e :: t) = none :=
            tokLen_none_of_head_ne _ _ hene
          rw [replaceToken_cons_none hscan]
          rw [existsMatch_tok_irrel (some ']') ((c :: rest).take n).getLast?
            (e :: replaceToken (πh :: πt) (some e) t)
            (by intro d t' hdt; injection hdt with h1 h2; rw [← h1]; exact hene)]
          rw [← replaceToken_cons_none hscan]
          refine ih ((c :: rest).take n).getLast? (e :: t) ?_
          have h1 : (e :: t).length = (c :: rest).length - n := by
            rw [← hd, List.length_drop]
          have h2 : (c :: rest).length ≤ N + 1 := hlen
          have h3 : 0 < n := hb.1
          omega
      · next heq =>
        refine existsMatch_cons_false _ ?_ (ih (some c) rest (by simp at hlen; omega))
        rcases replaceToken_shape (πh :: πt) rest.length (some c) rest (le_refl _) with
          hsame | ⟨u, v, n', w, hsv, hm, ho⟩
        · rw [hsame]; exact heq
        · rw [ho]
          obtain ⟨hwb, hpre2, _⟩ := tokenMatchLen_some_elim hm
          obtain ⟨tl, rfl⟩ := List.isPrefixOf_iff_prefix.mp hpre2
          have hul : ∀ d, (c :: u).getLast? = some d → isWordChar d = false := by
            intro d hdl
            rw [getLast?_cons_eq_ctxAfter] at hdl
            rw [hdl] at hwb
            exact hwb
          have hshape : c :: rest = (c :: u) ++ πh :: (πt ++ tl) := by
            rw [hsv]
            rfl
          have hnone2 : tokenMatchLen (πh :: πt) prev ((c :: u) ++ πh :: (πt ++ tl)) = none := by
            rw [← hshape]
            exact heq
          have hfin := stabTok_bracket hπw (πt ++ tl) ("REDACTED]".data ++ w) (by simp)
            hul (word_tok hπhw) hπhw hnone2
          have hcv : c :: ((u ++ redactedText) ++ w) =
              (c :: u) ++ '[' :: ("REDACTED]".data ++ w) := by
            rw [List.append_assoc]
            rfl
          rw [hcv]
          exact hfin

theorem not_word_not_hex {c : Char} (h : isWordChar c = false) : isHexIChar c = false := by
  cases hx : isHexIChar c with
  | false => rfl
  | true =>
    rw [hex_word hx] at h
    exact Bool.noConfusion h

/-- The hex pass kills every long-hex match: its output contains none. -/
theorem replaceHex_killed :
    ∀ (N : Nat) (prev : Option Char) (s : Text), s.length ≤ N →
      existsMatch hexMatchLen prev (replaceHex prev s) = false := by
  intro N
  induction N with
  | zero =>
    intro prev s hlen
    cases s with
    | nil => rw [replaceHex, existsMatch_nil, hexLen_none_nil]; rfl
    | cons c rest => simp at hlen
  | succ N ih =>
    intro prev s hlen
    cases s with
    | nil => rw [replaceHex, existsMatch_nil, hexLen_none_nil]; rfl
    | cons c rest =>
      rw [replaceHex]
      split
      · next n heq =>
        obtain ⟨hw, hrlen, h40, hfol⟩ := hexMatchLen_some_elim heq
        have hb := hexMatchLen_bounds heq
        show existsMatch hexMatchLen prev
          ('[':: 'R':: 'E':: 'D':: 'A':: 'C':: 'T':: 'E':: 'D':: ']'::
            replaceHex ((c :: rest).take n).getLast? ((c :: rest).drop n)) = false
        apply existsMatch_cons_false _ (hexLen_none_of_head_not_hex _ _ (by decide))
        apply existsMatch_cons_false _ (hexLen_none_of_head_not_hex _ _ (by decide))
        apply existsMatch_cons_false _ (hexLen_none_of_word_prev _ (by decide))
        apply existsMatch_cons_false _ (hexLen_none_of_word_prev _ (by decide))
        apply existsMatch_cons_false _ (hexLen_none_of_word_prev _ (by decide))
        apply existsMatch_cons_false _ (hexLen_none_of_word_prev _ (by decide))
        apply existsMatch_cons_false _ (hexLen_none_of_word_prev _ (by decide))
        apply existsMatch_cons_false _ (hexLen_none_of_word_prev _ (by decide))
        apply existsMatch_cons_false _ (hexLen_none_of_word_prev _ (by decide))
        apply existsMatch_cons_false _ (hexLen_none_of_word_prev _ (by decide))
        cases hd : (c :: rest).drop n with
        | nil =>
          rw [replaceHex, existsMatch_nil, hexLen_none_nil]
          rfl
        | cons e t =>
          have he : isWordChar e = false := hfol e (by rw [hd]; rfl)
          have hehex : isHexIChar e = false := not_word_not_hex he
          have hscan : hexMatchLen ((c :: rest).take n).getLast? (e :: t) = none :=
            hexLen_none_of_head_not_hex _ _ hehex
          rw [replaceHex_cons_none hscan]
          rw [existsMatch_hex_irrel (some ']') ((c :: rest).take n).getLast?
            (e :: replaceHex (some e) t)
            (by intro d t' hdt; injection hdt with h1 h2; rw [← h1]; exact hehex)]
          rw [← replaceHex_cons_none hscan]
          refine ih ((c :: rest).take n).getLast? (e :: t) ?_
          have h1 : (e :: t).length = (c :: rest).length - n := by
            rw [← hd, List.length_drop]
          have h2 : (c :: rest).length ≤ N + 1 := hlen
          have h3 : 0 < n := hb.1
          omega
      · next heq =>
        refine existsMatch_cons_false _ ?_ (ih (some c) rest (by simp at hlen; omega))
        rcases replaceHex_shape rest.length (some c) rest (le_refl _) with
          hsame | ⟨u, v, n', w, hsv, hm, ho⟩
        · rw [hsame]; exact heq
        · rw [ho]
          obtain ⟨hwb, hrlen2, h40b, _⟩ := hexMatchLen_some_elim hm
          have hrun_ne : v.takeWhile isHexIChar ≠ [] := by
            intro h0
            rw [h0] at hrlen2
            simp at hrlen2
            omega
          obtain ⟨vh, v2, rfl, hvhex⟩ := takeWhile_ne_nil_head hrun_ne
          have hul : ∀ d, (c :: u).getLast? = some d → isWordChar d = false := by
            intro d hdl
            rw [getLast?_cons_eq_ctxAfter] at hdl
            rw [hdl] at hwb
            exact hwb
          have hshape : c :: rest = (c :: u) ++ vh :: v2 := by
            rw [hsv]
            rfl
          have hnone2 : hexMatchLen prev ((c :: u) ++ vh :: v2) = none := by
            rw [← hshape]
            exact heq
          have hfin := stabHex_bracket v2 ("REDACTED]".data ++ w) (by simp)
            hul hvhex hnone2
          have hcv : c :: ((u ++ redactedText) ++ w) =
              (c :: u) ++ '[' :: ("REDACTED]".data ++ w) := by
            rw [List.append_assoc]
            rfl
          rw [hcv]
          exact hfin

/-- A token pass for one pattern cannot create a match of another
word-charactered token pattern. -/
theorem replaceToken_preserves_tok {πh : Char} {πt : Text}
    (hπw : ∀ c ∈ πh :: πt, isWordChar c = true) (hπR : πh ≠ 'R')
    {π2h : Char} {π2t : Text} (hπ2w : ∀ c ∈ π2h :: π2t, isWordChar c = true) :
    ∀ (N : Nat) (prev : Option Char) (s : Text), s.length ≤ N →
      existsMatch (tokenMatchLen (πh :: πt)) prev s = false →
      existsMatch (tokenMatchLen (πh :: πt)) prev (replaceToken (π2h :: π2t) prev s) = false := by
  have hπhw : isWordChar πh = true := hπw πh (List.mem_cons_self _ _)
  have hπ2hw : isWordChar π2h = true := hπ2w π2h (List.mem_cons_self _ _)
  have hbr : '[' ≠ πh := by
    intro hc
    rw [← hc] at hπhw
    exact absurd hπhw (by decide)
  intro N
  induction N with
  | zero =>
    intro prev s hlen hfree
    cases s with
    | nil => rw [replaceToken, existsMatch_nil, tokLen_none_nil]; rfl
    | cons c rest => simp at hlen
  | succ N ih =>
    intro prev s hlen hfree
    cases s with
    | nil => rw [replaceToken, existsMatch_nil, tokLen_none_nil]; rfl
    | cons c rest =>
      have hsplit := hfree
      rw [existsMatch_cons] at hsplit
      rcases Bool.or_eq_false_iff.mp hsplit with ⟨hf1, hf2⟩
      have hf1' : tokenMatchLen (πh :: πt) prev (c :: rest) = none := by
        cases hmt : tokenMatchLen (πh :: πt) prev (c :: rest) with
        | none => rfl
        | some k => rw [hmt] at hf1; simp at hf1
      rw [replaceToken]
      split
      · next n heq =>
        obtain ⟨hw2, hpre2, hfol2⟩ := tokenMatchLen_some_elim heq
        have hb := tokenMatchLen_bounds heq
        have htk : (c :: rest).take n ≠ [] := by
          cases n with
          | zero => exact absurd hb.1 (by omega)
          | succ m => simp
        have hfree' : existsMatch (tokenMatchLen (πh :: πt))
            (((c :: rest).take n).getLast?) ((c :: rest).drop n) = false := by
          rw [← ctxAfter_eq_getLast? htk prev]
          apply existsMatch_append_false
          rw [List.take_append_drop]
          exact hfree
        show existsMatch (tokenMatchLen (πh :: πt)) prev
          ('[':: 'R':: 'E':: 'D':: 'A':: 'C':: 'T':: 'E':: 'D':: ']'::
            replaceToken (π2h :: π2t) ((c :: rest).take n).getLast? ((c :: rest).drop n)) = false
        apply existsMatch_cons_false _ (tokLen_none_of_head_ne _ _ hbr)
        apply existsMatch_cons_false _ (tokLen_none_of_head_ne _ _ (Ne.symm hπR))
        apply existsMatch_cons_false _ (tokLen_none_of_word_prev _ (by decide))
        apply existsMatch_cons_false _ (tokLen_none_of_word_prev _ (by decide))
        apply existsMatch_cons_false _ (tokLen_none_of_word_prev _ (by decide))
        apply existsMatch_cons_false _ (tokLen_none_of_word_prev _ (by decide))
        apply existsMatch_cons_false _ (tokLen_none_of_word_prev _ (by decide))
        apply existsMatch_cons_false _ (tokLen_none_of_word_prev _ (by decide))
        apply existsMatch_cons_false _ (tokLen_none_of_word_prev _ (by decide))
        apply existsMatch_cons_false _ (tokLen_none_of_word_prev _ (by decide))
        cases hd : (c :: rest).drop n with
        | nil =>
          rw [replaceToken, existsMatch_nil, tokLen_none_nil]
          rfl
        | cons e t =>
          rw [hd] at hfree'
          have he : isTokenChar e = false ∨ e = '-' := hfol2 e (by rw [hd]; rfl)
          have hene : e ≠ πh := by
            rcases he with he | he
            · intro hc
              rw [hc, word_tok hπhw] at he
              exact Bool.noConfusion he
            · intro hc
              rw [hc] at he
              exact absurd he (word_ne_dash hπhw)
          have hene2 : e ≠ π2h := by
            rcases he with he | he
            · intro hc
              rw [hc, word_tok hπ2hw] at he
              exact Bool.noConfusion he
            · intro hc
              rw [hc] at he
              exact absurd he (word_ne_dash hπ2hw)
          have hscan : tokenMatchLen (π2h :: π2t) ((c :: rest).take n).getLast? (e :: t) = none :=
            tokLen_none_of_head_ne _ _ hene2
          rw [replaceToken_cons_none hscan]
          rw [existsMatch_tok_irrel (some ']') ((c :: rest).take n).getLast?
            (e :: replaceToken (π2h :: π2t) (some e) t)
            (by intro d t' hdt; injection hdt with h1 h2; rw [← h1]; exact hene)]
          rw [← replaceToken_cons_none hscan]
          refine ih ((c :: rest).take n).getLast? (e :: t) ?_ hfree'
          have h1 : (e :: t).length = (c :: rest).length - n := by
            rw [← hd, List.length_drop]
          have h2 : (c :: rest).length ≤ N + 1 := hlen
          have h3 : 0 < n := hb.1
          omega
      · next heq =>
        refine existsMatch_cons_false _ ?_ (ih (some c) rest (by simp at hlen; omega) hf2)
        rcases replaceToken_shape (π2h :: π2t) rest.length (some c) rest (le_refl _) with
          hsame | ⟨u, v, n', w, hsv, hm, ho⟩
        · rw [hsame]; exact hf1'
        · rw [ho]
          obtain ⟨hwb, hpre3, _⟩ := tokenMatchLen_some_elim hm
          obtain ⟨tl, rfl⟩ := List.isPrefixOf_iff_prefix.mp hpre3
          have hul : ∀ d, (c :: u).getLast? = some d → isWordChar d = false := by
            intro d hdl
            rw [getLast?_cons_eq_ctxAfter] at hdl
            rw [hdl] at hwb
            exact hwb
          have hshape : c :: rest = (c :: u) ++ π2h :: (π2t ++ tl) := by
            rw [hsv]
            rfl
          have hnone2 : tokenMatchLen (πh :: πt) prev ((c :: u) ++ π2h :: (π2t ++ tl)) = none := by
            rw [← hshape]
            exact hf1'
          have hfin := stabTok_bracket hπw (π2t ++ tl) ("REDACTED]".data ++ w) (by simp)
            hul (word_tok hπ2hw) hπ2hw hnone2
          have hcv : c :: ((u ++ redactedText) ++ w) =
              (c :: u) ++ '[' :: ("REDACTED]".data ++ w) := by
            rw [List.append_assoc]
            rfl
          rw [hcv]
          exact hfin

/-- The Bearer pass cannot create a match of a word-charactered token
pattern that does not contain `B`. -/
theorem replaceBearer_preserves_tok {πh : Char} {πt : Text}
    (hπw : ∀ c ∈ πh :: πt, isWordChar c = true) (hπR : πh ≠ 'R')
    (hπB : 'B' ∉ πh :: πt) :
    ∀ (N : Nat) (prev : Option Char) (s : Text), s.length ≤ N →
      existsMatch (tokenMatchLen (πh :: πt)) prev s = false →
      existsMatch (tokenMatchLen (πh :: πt)) prev (replaceBearer s) = false := by
  have hπhw : isWordChar πh = true := hπw πh (List.mem_cons_self _ _)
  have hbr : '[' ≠ πh := by
    intro hc
    rw [← hc] at hπhw
    exact absurd hπhw (by decide)
  have hBne : ('B' : Char) ≠ πh := by
    intro hc
    exact hπB (by rw [hc]; exact List.mem_cons_self _ _)
  intro N
  induction N with
  | zero =>
    intro prev s hlen hfree
    cases s with
    | nil => rw [replaceBearer, existsMatch_nil, tokLen_none_nil]; rfl
    | cons c rest => simp at hlen
  | succ N ih =>
    intro prev s hlen hfree
    cases s with
    | nil => rw [replaceBearer, existsMatch_nil, tokLen_none_nil]; rfl
    | cons c rest =>
      have hsplit := hfree
      rw [existsMatch_cons] at hsplit
      rcases Bool.or_eq_false_iff.mp hsplit with ⟨hf1, hf2⟩
      have hf1' : tokenMatchLen (πh :: πt) prev (c :: rest) = none := by
        cases hmt : tokenMatchLen (πh :: πt) prev (c :: rest) with
        | none => rfl
        | some k => rw [hmt] at hf1; simp at hf1
      rw [replaceBearer]
      split
      · next n heq =>
        obtain ⟨hpre2, hfol2⟩ := bearerMatchLen_some_elim heq
        have hb := bearerMatchLen_bounds heq
        have htk : (c :: rest).take n ≠ [] := by
          cases n with
          | zero => exact absurd hb.1 (by omega)
          | succ m => simp
        have hfree' : existsMatch (tokenMatchLen (πh :: πt))
            (((c :: rest).take n).getLast?) ((c :: rest).drop n) = false := by
          rw [← ctxAfter_eq_getLast? htk prev]
          apply existsMatch_append_false
          rw [List.take_append_drop]
          exact hfree
        show existsMatch (tokenMatchLen (πh :: πt)) prev
          ('B':: 'e':: 'a':: 'r':: 'e':: 'r':: ' ':: '[':: 'R':: 'E':: 'D':: 'A':: 'C':: 'T':: 'E':: 'D':: ']'::
            replaceBearer ((c :: rest).drop n)) = false
        apply existsMatch_cons_false _ (tokLen_none_of_head_ne _ _ hBne)
        apply existsMatch_cons_false _ (tokLen_none_of_word_prev _ (by decide))
        apply existsMatch_cons_false _ (tokLen_none_of_word_prev _ (by decide))
        apply existsMatch_cons_false _ (tokLen_none_of_word_prev _ (by decide))
        apply existsMatch_cons_false _ (tokLen_none_of_word_prev _ (by decide))
        apply existsMatch_cons_false _ (tokLen_none_of_word_prev _ (by decide))
        apply existsMatch_cons_false _ (tokLen_none_of_word_prev _ (by decide))
        apply existsMatch_cons_false _ (tokLen_none_of_head_ne _ _ hbr)
        apply existsMatch_cons_false _ (tokLen_none_of_head_ne _ _ (Ne.symm hπR))
        apply existsMatch_cons_false _ (tokLen_none_of_word_prev _ (by decide))
        apply existsMatch_cons_false _ (tokLen_none_of_word_prev _ (by decide))
        apply existsMatch_cons_false _ (tokLen_none_of_word_prev _ (by decide))
        apply existsMatch_cons_false _ (tokLen_none_of_word_prev _ (by decide))
        apply existsMatch_cons_false _ (tokLen_none_of_word_prev _ (by decide))
        apply existsMatch_cons_false _ (tokLen_none_of_word_prev _ (by decide))
        apply existsMatch_cons_false _ (tokLen_none_of_word_prev _ (by decide))
        apply existsMatch_cons_false _ (tokLen_none_of_word_prev _ (by decide))
        cases hd : (c :: rest).drop n with
        | nil =>
          rw [replaceBearer, existsMatch_nil, tokLen_none_nil]
          rfl
        | cons e t =>
          rw [hd] at hfree'
          have he : isTokenChar e = false := hfol2 e (by rw [hd]; rfl)
          have hene : e ≠ πh := by
            intro hc
            rw [hc, word_tok hπhw] at he
            exact Bool.noConfusion he
          have heB : e ≠ 'B' := by
            intro hc
            rw [hc] at he
            exact absurd he (by decide)
          have hscan : bearerMatchLen (e :: t) = none :=
            bearerLen_none_of_head_ne _ heB
          rw [replaceBearer_cons_none hscan]
          rw [existsMatch_tok_irrel (some ']') ((c :: rest).take n).getLast?
            (e :: replaceBearer t)
            (by intro d t' hdt; injection hdt with h1 h2; rw [← h1]; exact hene)]
          rw [← replaceBearer_cons_none hscan]
          refine ih ((c :: rest).take n).getLast? (e :: t) ?_ hfree'
          have h1 : (e :: t).length = (c :: rest).length - n := by
            rw [← hd, List.length_drop]
          have h2 : (c :: rest).length ≤ N + 1 := hlen
          have h3 : 0 < n := hb.1
          omega
      · next heq =>
        refine existsMatch_cons_false _ ?_ (ih (some c) rest (by simp at hlen; omega) hf2)
        rcases replaceBearer_shape rest.length rest (le_refl _) with
          hsame | ⟨u, v, n', w, hsv, hm, ho⟩
        · rw [hsame]; exact hf1'
        · rw [ho]
          obtain ⟨hpre3, _⟩ := bearerMatchLen_some_elim hm
          obtain ⟨tl, rfl⟩ := List.isPrefixOf_iff_prefix.mp hpre3
          have hshape : c :: rest = (c :: u) ++ 'B' :: ("earer".data ++ tl) := by
            rw [hsv]
            rfl
          have hnone2 : tokenMatchLen (πh :: πt) prev
              ((c :: u) ++ 'B' :: ("earer".data ++ tl)) = none := by
            rw [← hshape]
            exact hf1'
          have hfin := stabTok_headB hπw hπB ("earer".data ++ tl)
            ("earer [REDACTED]".data ++ w) hnone2
          have hcv : c :: ((u ++ bearerRedactedText) ++ w) =
              (c :: u) ++ 'B' :: ("earer [REDACTED]".data ++ w) := by
            rw [List.append_assoc]
            rfl
          rw [hcv]
          exact hfin

/-- The hex pass cannot create a match of a word-charactered token pattern. -/
theorem replaceHex_preserves_tok {πh : Char} {πt : Text}
    (hπw : ∀ c ∈ πh :: πt, isWordChar c = true) (hπR : πh ≠ 'R') :
    ∀ (N : Nat) (prev : Option Char) (s : Text), s.length ≤ N →
      existsMatch (tokenMatchLen (πh :: πt)) prev s = false →
      existsMatch (tokenMatchLen (πh :: πt)) prev (replaceHex prev s) = false := by
  have hπhw : isWordChar πh = true := hπw πh (List.mem_cons_self _ _)
  have hbr : '[' ≠ πh := by
    intro hc
    rw [← hc] at hπhw
    exact absurd hπhw (by decide)
  intro N
  induction N with
  | zero =>
    intro prev s hlen hfree
    cases s with
    | nil => rw [replaceHex, existsMatch_nil, tokLen_none_nil]; rfl
    | cons c rest => simp at hlen
  | succ N ih =>
    intro prev s hlen hfree
    cases s with
    | nil => rw [replaceHex, existsMatch_nil, tokLen_none_nil]; rfl
    | cons c rest =>
      have hsplit := hfree
      rw [existsMatch_cons] at hsplit
      rcases Bool.or_eq_false_iff.mp hsplit with ⟨hf1, hf2⟩
      have hf1' : tokenMatchLen (πh :: πt) prev (c :: rest) = none := by
        cases hmt : tokenMatchLen (πh :: πt) prev (c :: rest) with
        | none => rfl
        | some k => rw [hmt] at hf1; simp at hf1
      rw [replaceHex]
      split
      · next n heq =>
        obtain ⟨hw2, hrlen2, h40b, hfol2⟩ := hexMatchLen_some_elim heq
        have hb := hexMatchLen_bounds heq
        have htk : (c :: rest).take n ≠ [] := by
          cases n with
          | zero => exact absurd hb.1 (by omega)
          | succ m => simp
        have hfree' : existsMatch (tokenMatchLen (πh :: πt))
            (((c :: rest).take n).getLast?) ((c :: rest).drop n) = false := by
          rw [← ctxAfter_eq_getLast? htk prev]
          apply existsMatch_append_false
          rw [List.take_append_drop]
          exact hfree
        show existsMatch (tokenMatchLen (πh :: πt)) prev
          ('[':: 'R':: 'E':: 'D':: 'A':: 'C':: 'T':: 'E':: 'D':: ']'::
            replaceHex ((c :: rest).take n).getLast? ((c :: rest).drop n)) = false
        apply existsMatch_cons_false _ (tokLen_none_of_head_ne _ _ hbr)
        apply existsMatch_cons_false _ (tokLen_none_of_head_ne _ _ (Ne.symm hπR))
        apply existsMatch_cons_false _ (tokLen_none_of_word_prev _ (by decide))
        apply existsMatch_cons_false _ (tokLen_none_of_word_prev _ (by decide))
        apply existsMatch_cons_false _ (tokLen_none_of_word_prev _ (by decide))
        apply existsMatch_cons_false _ (tokLen_none_of_word_prev _ (by decide))
        apply existsMatch_cons_false _ (tokLen_none_of_word_prev _ (by decide))
        apply existsMatch_cons_false _ (tokLen_none_of_word_prev _ (by decide))
        apply existsMatch_cons_false _ (tokLen_none_of_word_prev _ (by decide))
        apply existsMatch_cons_false _ (tokLen_none_of_word_prev _ (by decide))
        cases hd : (c :: rest).drop n with
        | nil =>
          rw [replaceHex, existsMatch_nil, tokLen_none_nil]
          rfl
        | cons e t =>
          rw [hd] at hfree'
          have he : isWordChar e = false := hfol2 e (by rw [hd]; rfl)
          have hene : e ≠ πh := by
            intro hc
            rw [hc, hπhw] at he
            exact Bool.noConfusion he
          have hscan : hexMatchLen ((c :: rest).take n).getLast? (e :: t) = none :=
            hexLen_none_of_head_not_hex _ _ (not_word_not_hex he)
          rw [replaceHex_cons_none hscan]
          rw [existsMatch_tok_irrel (some ']') ((c :: rest).take n).getLast?
            (e :: replaceHex (some e) t)
            (by intro d t' hdt; injection hdt with h1 h2; rw [← h1]; exact hene)]
          rw [← replaceHex_cons_none hscan]
          refine ih ((c :: rest).take n).getLast? (e :: t) ?_ hfree'
          have h1 : (e :: t).length = (c :: rest).length - n := by
            rw [← hd, List.length_drop]
          have h2 : (c :: rest).length ≤ N + 1 := hlen
          have h3 : 0 < n := hb.1
          omega
      · next heq =>
        refine existsMatch_cons_false _ ?_ (ih (some c) rest (by simp at hlen; omega) hf2)
        rcases replaceHex_shape rest.length (some c) rest (le_refl _) with
          hsame | ⟨u, v, n', w, hsv, hm, ho⟩
        · rw [hsame]; exact hf1'
        · rw [ho]
          obtain ⟨hwb, hrlen3, h40c, _⟩ := hexMatchLen_some_elim hm
          have hrun_ne : v.takeWhile isHexIChar ≠ [] := by
            intro h0
            rw [h0] at hrlen3
            simp at hrlen3
            omega
          obtain ⟨vh, v2, rfl, hvhex⟩ := takeWhile_ne_nil_head hrun_ne
          have hul : ∀ d, (c :: u).getLast? = some d → isWordChar d = false := by
            intro d hdl
            rw [getLast?_cons_eq_ctxAfter] at hdl
            rw [hdl] at hwb
            exact hwb
          have hshape : c :: rest = (c :: u) ++ vh :: v2 := by
            rw [hsv]
            rfl
          have hnone2 : tokenMatchLen (πh :: πt) prev ((c :: u) ++ vh :: v2) = none := by
            rw [← hshape]
            exact hf1'
          have hfin := stabTok_bracket hπw v2 ("REDACTED]".data ++ w) (by simp)
            hul (hex_tok hvhex) (hex_word hvhex) hnone2
          have hcv : c :: ((u ++ redactedText) ++ w) =
              (c :: u) ++ '[' :: ("REDACTED]".data ++ w) := by
            rw [List.append_assoc]
            rfl
          rw [hcv]
          exact hfin

/-- The hex pass cannot create a Bearer match. -/
theorem replaceHex_preserves_bearer :
    ∀ (N : Nat) (prev : Option Char) (s : Text), s.length ≤ N →
      existsMatch (fun _ x => bearerMatchLen x) prev s = false →
      existsMatch (fun _ x => bearerMatchLen x) prev (replaceHex prev s) = false := by
  intro N
  induction N with
  | zero =>
    intro prev s hlen hfree
    cases s with
    | nil => rw [replaceHex, existsMatch_nil]; rfl
    | cons c rest => simp at hlen
  | succ N ih =>
    intro prev s hlen hfree
    cases s with
    | nil => rw [replaceHex, existsMatch_nil]; rfl
    | cons c rest =>
      have hsplit := hfree
      rw [existsMatch_cons] at hsplit
      rcases Bool.or_eq_false_iff.mp hsplit with ⟨hf1, hf2⟩
      have hf1b : (bearerMatchLen (c :: rest)).isSome = false := hf1
      have hf1' : bearerMatchLen (c :: rest) = none := by
        cases hmt : bearerMatchLen (c :: rest) with
        | none => rfl
        | some k => rw [hmt] at hf1b; simp at hf1b
      rw [replaceHex]
      split
      · next n heq =>
        have hb := hexMatchLen_bounds heq
        have htk : (c :: rest).take n ≠ [] := by
          cases n with
          | zero => exact absurd hb.1 (by omega)
          | succ m => simp
        have hfree' : existsMatch (fun _ x => bearerMatchLen x)
            (((c :: rest).take n).getLast?) ((c :: rest).drop n) = false := by
          rw [← ctxAfter_eq_getLast? htk prev]
          apply existsMatch_append_false
          rw [List.take_append_drop]
          exact hfree
        show existsMatch (fun _ x => bearerMatchLen x) prev
          ('[':: 'R':: 'E':: 'D':: 'A':: 'C':: 'T':: 'E':: 'D':: ']'::
            replaceHex ((c :: rest).take n).getLast? ((c :: rest).drop n)) = false
        apply existsMatch_bearer_cons_false (bearerLen_none_of_head_ne _ (by decide))
        apply existsMatch_bearer_cons_false (bearerLen_none_of_head_ne _ (by decide))
        apply existsMatch_bearer_cons_false (bearerLen_none_of_head_ne _ (by decide))
        apply existsMatch_bearer_cons_false (bearerLen_none_of_head_ne _ (by decide))
        apply existsMatch_bearer_cons_false (bearerLen_none_of_head_ne _ (by decide))
        apply existsMatch_bearer_cons_false (bearerLen_none_of_head_ne _ (by decide))
        apply existsMatch_bearer_cons_false (bearerLen_none_of_head_ne _ (by decide))
        apply existsMatch_bearer_cons_false (bearerLen_none_of_head_ne _ (by decide))
        apply existsMatch_bearer_cons_false (bearerLen_none_of_head_ne _ (by decide))
        apply existsMatch_bearer_cons_false (bearerLen_none_of_head_ne _ (by decide))
        rw [existsMatch_bearer_irrel (some ']') ((c :: rest).take n).getLast?]
        refine ih ((c :: rest).take n).getLast? ((c :: rest).drop n) ?_ hfree'
        have h1 : ((c :: rest).drop n).length = (c :: rest).length - n := List.length_drop n _
        have h2 : (c :: rest).length ≤ N + 1 := hlen
        have h3 : 0 < n := hb.1
        omega
      · next heq =>
        refine existsMatch_bearer_cons_false ?_ (ih (some c) rest (by simp at hlen; omega) hf2)
        rcases replaceHex_shape rest.length (some c) rest (le_refl _) with
          hsame | ⟨u, v, n', w, hsv, hm, ho⟩
        · rw [hsame]; exact hf1'
        · rw [ho]
          obtain ⟨hwb, hrlen3, h40c, _⟩ := hexMatchLen_some_elim hm
          have hrun_ne : v.takeWhile isHexIChar ≠ [] := by
            intro h0
            rw [h0] at hrlen3
            simp at hrlen3
            omega
          obtain ⟨vh, v2, rfl, hvhex⟩ := takeWhile_ne_nil_head hrun_ne
          have hshape : c :: rest = (c :: u) ++ vh :: v2 := by
            rw [hsv]
            rfl
          have hnone2 : bearerMatchLen ((c :: u) ++ vh :: v2) = none := by
            rw [← hshape]
            exact hf1'
          have hfin := stabBearer_bracket (u := c :: u) (by simp) v2 w
            (hex_tok hvhex) (hex_not_space hvhex) hnone2
          have hcv : c :: ((u ++ redactedText) ++ w) =
              ((c :: u) ++ redactedText) ++ w := by
            rw [List.append_assoc, List.append_assoc]
            rfl
          rw [hcv]
          exact hfin

/-- The four passes of `sanitizeMessage` together remove every match of
every pattern: each pass kills its own pattern and no later pass can
reintroduce a match of an earlier one. -/
theorem sanitizeMessage_secretFree (m : Text) : secretFree (sanitizeMessage m) := by
  have h1 : existsMatch (tokenMatchLen ("ntn_".data)) none
      (replaceToken ("ntn_".data) none m) = false :=
    replaceToken_killed (by decide) (by decide) m.length none m (le_refl _)
  have h2 : existsMatch (tokenMatchLen ("secret_".data)) none
      (replaceToken ("secret_".data) none (replaceToken ("ntn_".data) none m)) = false :=
    replaceToken_killed (by decide) (by decide)
      (replaceToken ("ntn_".data) none m).length none
      (replaceToken ("ntn_".data) none m) (le_refl _)
  have h1b : existsMatch (tokenMatchLen ("ntn_".data)) none
      (replaceToken ("secret_".data) none (replaceToken ("ntn_".data) none m)) = false :=
    replaceToken_preserves_tok (by decide) (by decide) (by decide)
      (replaceToken ("ntn_".data) none m).length none
      (replaceToken ("ntn_".data) none m) (le_refl _) h1
  have h3 : existsMatch (fun _ x => bearerMatchLen x) none
      (replaceBearer (replaceToken ("secret_".data) none
        (replaceToken ("ntn_".data) none m))) = false :=
    replaceBearer_killed
      (replaceToken ("secret_".data) none (replaceToken ("ntn_".data) none m)).length
      (replaceToken ("secret_".data) none (replaceToken ("ntn_".data) none m)) none
      (le_refl _)
  have h1c : existsMatch (tokenMatchLen ("ntn_".data)) none
      (replaceBearer (replaceToken ("secret_".data) none
        (replaceToken ("ntn_".data) none m))) = false :=
    replaceBearer_preserves_tok (by decide) (by decide) (by decide)
      (replaceToken ("secret_".data) none (replaceToken ("ntn_".data) none m)).length none
      (replaceToken ("secret_".data) none (replaceToken ("ntn_".data) none m))
      (le_refl _) h1b
  have h2c : existsMatch (tokenMatchLen ("secret_".data)) none
      (replaceBearer (replaceToken ("secret_".data) none
        (replaceToken ("ntn_".data) none m))) = false :=
    replaceBearer_preserves_tok (by decide) (by decide) (by decide)
      (replaceToken ("secret_".data) none (replaceToken ("ntn_".data) none m)).length none
      (replaceToken ("secret_".data) none (replaceToken ("ntn_".data) none m))
      (le_refl _) h2
  have h4 : existsMatch hexMatchLen none (sanitizeMessage m) = false :=
    replaceHex_killed
      (replaceBearer (replaceToken ("secret_".data) none
        (replaceToken ("ntn_".data) none m))).length none
      (replaceBearer (replaceToken ("secret_".data) none
        (replaceToken ("ntn_".data) none m))) (le_refl _)
  have h1d : existsMatch (tokenMatchLen ("ntn_".data)) none (sanitizeMessage m) = false :=
    replaceHex_preserves_tok (by decide) (by decide)
      (replaceBearer (replaceToken ("secret_".data) none
        (replaceToken ("ntn_".data) none m))).length none
      (replaceBearer (replaceToken ("secret_".data) none
        (replaceToken ("ntn_".data) none m))) (le_refl _) h1c
  have h2d : existsMatch (tokenMatchLen ("secret_".data)) none (sanitizeMessage m) = false :=
    replaceHex_preserves_tok (by decide) (by decide)
      (replaceBearer (replaceToken ("secret_".data) none
        (replaceToken ("ntn_".data) none m))).length none
      (replaceBearer (replaceToken ("secret_".data) none
        (replaceToken ("ntn_".data) none m))) (le_refl _) h2c
  have h3d : existsMatch (fun _ x => bearerMatchLen x) none (sanitizeMessage m) = false :=
    replaceHex_preserves_bearer
      (replaceBearer (replaceToken ("secret_".data) none
        (replaceToken ("ntn_".data) none m))).length none
      (replaceBearer (replaceToken ("secret_".data) none
        (replaceToken ("ntn_".data) none m))) (le_refl _) h3
  exact ⟨h1d, h2d, h3d, h4⟩

/-- C9: for every string passed as a message to a `CliError` — via the base
constructor or any of the subclass constructors (`ValidationError`,
`AuthError`, `NotFoundError`, `RateLimitError`, `PatchConflictError`) — the
constructed error's message contains no secret-shaped substring: no position
of the stored message starts a match of the `ntn_…` token pattern, the
`secret_…` token pattern, the Bearer-token pattern, or the 40-plus-character
hex pattern, because every occurrence was replaced by a redaction marker
before the message was stored. -/
theorem cliError_message_secretFree :
    (∀ (msg code : Text) (ec : Int), secretFree (mkCliError msg code ec).message) ∧
    (∀ msg : Text, secretFree (mkAuthError msg).message) ∧
    (∀ msg : Text, secretFree (mkValidationError msg).message) ∧
    (∀ resource i : Text, secretFree (mkNotFoundError resource i).message) ∧
    (∀ ms : Nat, secretFree (mkRateLimitError ms).message) ∧
    (∀ msg : Text, secretFree (mkPatchConflictError msg).message) := by
  have hbase : ∀ (msg code : Text) (ec : Int), secretFree (mkCliError msg code ec).message := by
    intro msg code ec
    show secretFree (sanitizeMessage msg)
    exact sanitizeMessage_secretFree msg
  refine ⟨hbase, ?_, ?_, ?_, ?_, ?_⟩
  · intro msg
    exact hbase msg ("AUTH_ERROR".data) 3
  · intro msg
    exact hbase msg ("VALIDATION_ERROR".data) 2
  · intro resource i
    exact hbase (resource ++ " not found: ".data ++ i) ("NOT_FOUND".data) 4
  · intro ms
    exact hbase ("Rate limited by Notion API. Retry after ".data ++
      natDigits ((ms + 999) / 1000) ++ "s.".data) ("RATE_LIMITED".data) 5
  · intro msg
    exact hbase msg ("PATCH_CONFLICT".data) 1
